/-
Verification of the elliptic-curve key and signature core of libbitcoin
(`src/utility/ec_keys.cpp`).

The C++ file is a thin wrapper around two external curve-arithmetic engines:
the secp256k1 signing library (key derivation, validation, ECDSA signing and
verification, scalar/point tweaks) and OpenSSL's EC module (general
point+point addition).  Neither engine's source is part of the repository, so
the engine primitives are modelled from the specification: secp256k1 curve
arithmetic over the prime field `ZMod P`, ECDSA with caller-supplied nonces,
compressed/uncompressed point encodings, and DER-style signature encoding.
The wrapper functions themselves are translated directly from the C++ source,
including their event traces (which engine calls and initialization calls
they make, in order).

The development proves the curve-group facts it needs against Mathlib's
`WeierstrassCurve.Affine.Point` group, with primality of the field
characteristic and of the group order established by Lucas (Pratt-style)
certificates.
-/
import Mathlib

set_option maxRecDepth 100000

namespace ECKeys

/-! ### Fast modular exponentiation on `Nat`

The engine models need modular exponentiation with 256-bit exponents; it is
written by structural recursion on a fuel argument so that it evaluates by
kernel reduction. -/

/-- `powModAux f a e m` computes `a ^ e % m` by binary exponentiation,
valid whenever `e < 2 ^ f` and `0 < m`. -/
def powModAux : Nat → Nat → Nat → Nat → Nat
  | 0, _, _, m => 1 % m
  | f + 1, a, e, m =>
    if e = 0 then 1 % m
    else
      let r := powModAux f (a * a % m) (e / 2) m
      if e % 2 = 1 then r * a % m else r

/-- Modular exponentiation with enough fuel for any exponent below `2 ^ 320`. -/
def powMod (a e m : Nat) : Nat := powModAux 320 a e m

theorem powModAux_eq (f : Nat) : ∀ a e m, 0 < m → e < 2 ^ f →
    powModAux f a e m = a ^ e % m := by
  induction f with
  | zero =>
    intro a e m hm he
    interval_cases e
    simp [powModAux]
  | succ f ih =>
    intro a e m hm he
    rw [powModAux]
    by_cases he0 : e = 0
    · simp [he0]
    · have hdiv : e / 2 < 2 ^ f := by
        rw [Nat.div_lt_iff_lt_mul (by norm_num)]
        calc e < 2 ^ (f + 1) := he
        _ = 2 ^ f * 2 := by ring
      rw [if_neg he0, ih (a * a % m) (e / 2) m hm hdiv]
      have hsq : (a * a % m) ^ (e / 2) % m = a ^ (2 * (e / 2)) % m := by
        rw [Nat.pow_mod, Nat.mod_mod_of_dvd _ dvd_rfl, ← Nat.pow_mod, two_mul,
          pow_add, ← mul_pow]
      by_cases hpar : e % 2 = 1
      · rw [if_pos hpar]
        have he2 : e = 2 * (e / 2) + 1 := by omega
        conv_rhs => rw [he2]
        rw [pow_succ, hsq, Nat.mod_mul_mod]
      · rw [if_neg hpar]
        have he2 : e = 2 * (e / 2) := by omega
        rw [hsq, ← he2]

theorem powMod_eq (a e m : Nat) (hm : 0 < m) (he : e < 2 ^ 320) :
    powMod a e m = a ^ e % m :=
  powModAux_eq 320 a e m hm he

/-! ### Lucas (Pratt) primality certificates

`lucas_primality` from Mathlib turns a witness of multiplicative order `q - 1`
into a primality proof; the helper below packages it so a certificate is a
complete factor list for `q - 1` together with the witness `a`. -/

/-- The number described by a prime-power factor list. -/
def certProd : List (Nat × Nat) → Nat
  | [] => 1
  | (q, e) :: l => q ^ e * certProd l

theorem prime_dvd_certProd {r : Nat} (hr : r.Prime) :
    ∀ L : List (Nat × Nat), r ∣ certProd L → ∃ pe ∈ L, r ∣ pe.1 := by
  intro L
  induction L with
  | nil =>
    intro h
    exact absurd (Nat.le_of_dvd one_pos h) (by have := hr.two_le; omega)
  | cons pe l ih =>
    intro h
    rcases (Nat.Prime.dvd_mul hr).mp h with h1 | h2
    · exact ⟨pe, List.mem_cons_self .., hr.dvd_of_dvd_pow h1⟩
    · obtain ⟨pe', hmem, hdvd⟩ := ih h2
      exact ⟨pe', List.mem_cons_of_mem _ hmem, hdvd⟩

/-- A Lucas certificate for `q`: a complete prime-power factorization of
`q - 1` (each listed base prime), together with a witness `a` of full
multiplicative order modulo `q`. -/
theorem prime_of_lucas_cert (q a : Nat) (L : List (Nat × Nat))
    (h1 : 2 ≤ q) (hq : q < 2 ^ 320)
    (hL : certProd L = q - 1)
    (hp : ∀ pe ∈ L, Nat.Prime pe.1)
    (ha : powMod a (q - 1) q = 1)
    (hd : ∀ pe ∈ L, powMod a ((q - 1) / pe.1) q ≠ 1) : Nat.Prime q := by
  haveI : NeZero q := ⟨by omega⟩
  have hqpos : 0 < q := by omega
  have hcast : ∀ e : Nat, e < 2 ^ 320 → ((a : ZMod q) ^ e = 1 ↔ powMod a e q = 1) := by
    intro e he
    rw [powMod_eq a e q hqpos he]
    constructor
    · intro h
      have : ((a ^ e % q : Nat) : ZMod q) = ((1 % q : Nat) : ZMod q) := by
        rw [ZMod.natCast_mod, ZMod.natCast_mod, Nat.cast_pow, h, Nat.cast_one]
      have hval := congrArg ZMod.val this
      rwa [ZMod.val_natCast_of_lt (Nat.mod_lt _ hqpos),
        ZMod.val_natCast_of_lt (Nat.mod_lt _ hqpos), Nat.one_mod_eq_one.mpr (by omega)] at hval
    · intro h
      have : ((a ^ e % q : Nat) : ZMod q) = 1 := by rw [h, Nat.cast_one]
      rwa [ZMod.natCast_mod, Nat.cast_pow] at this
  apply lucas_primality q (a : ZMod q)
  · exact (hcast (q - 1) (by omega)).mpr ha
  · intro r hr hrdvd
    have hrL : ∃ pe ∈ L, r ∣ pe.1 := prime_dvd_certProd hr L (hL ▸ hrdvd)
    obtain ⟨pe, hmem, hdvd⟩ := hrL
    have hreq : r = pe.1 := ((Nat.prime_dvd_prime_iff_eq hr (hp pe hmem)).mp hdvd)
    intro hcontra
    exact hd pe hmem ((hcast ((q - 1) / pe.1) (by
      have : (q - 1) / pe.1 ≤ q - 1 := Nat.div_le_self _ _
      omega)).mp (hreq ▸ hcontra))

/-! ### Primality of the secp256k1 constants

Lucas certificates for the field characteristic `P0` and the group order
`N0` of secp256k1, with the full Pratt tree of supporting primes. -/

theorem prime_2 : Nat.Prime 2 := by norm_num

theorem prime_3 : Nat.Prime 3 := by norm_num

theorem prime_5 : Nat.Prime 5 := by norm_num

theorem prime_7 : Nat.Prime 7 := by norm_num

theorem prime_11 : Nat.Prime 11 := by norm_num

theorem prime_13 : Nat.Prime 13 := by norm_num

theorem prime_17 : Nat.Prime 17 := by norm_num

theorem prime_19 : Nat.Prime 19 := by norm_num

theorem prime_23 : Nat.Prime 23 := by norm_num

theorem prime_29 : Nat.Prime 29 := by norm_num

theorem prime_31 : Nat.Prime 31 := by norm_num

theorem prime_37 : Nat.Prime 37 := by norm_num

theorem prime_41 : Nat.Prime 41 := by norm_num

theorem prime_53 : Nat.Prime 53 := by norm_num

theorem prime_59 : Nat.Prime 59 := by norm_num

theorem prime_67 : Nat.Prime 67 := by norm_num

theorem prime_73 : Nat.Prime 73 := by norm_num

theorem prime_83 : Nat.Prime 83 := by norm_num

theorem prime_97 : Nat.Prime 97 := by norm_num

theorem prime_101 : Nat.Prime 101 := by norm_num

theorem prime_103 : Nat.Prime 103 := by norm_num

theorem prime_109 : Nat.Prime 109 := by norm_num

theorem prime_113 : Nat.Prime 113 := by norm_num

theorem prime_131 : Nat.Prime 131 := by norm_num

theorem prime_149 : Nat.Prime 149 := by norm_num

theorem prime_199 : Nat.Prime 199 := by norm_num

theorem prime_239 : Nat.Prime 239 := by norm_num

theorem prime_271 : Nat.Prime 271 := by norm_num

theorem prime_293 : Nat.Prime 293 := by norm_num

theorem prime_419 : Nat.Prime 419 := by norm_num

theorem prime_443 : Nat.Prime 443 := by norm_num

theorem prime_461 : Nat.Prime 461 := by norm_num

theorem prime_631 : Nat.Prime 631 := by norm_num

theorem prime_797 : Nat.Prime 797 := by norm_num

theorem prime_887 : Nat.Prime 887 := by norm_num

theorem prime_971 : Nat.Prime 971 := by norm_num

theorem prime_1373 : Nat.Prime 1373 := by norm_num

theorem prime_1409 : Nat.Prime 1409 := by norm_num

theorem prime_1627 : Nat.Prime 1627 := by norm_num

theorem prime_1871 : Nat.Prime 1871 := by norm_num

theorem prime_2011 : Nat.Prime 2011 := by norm_num

theorem prime_2621 : Nat.Prime 2621 := by norm_num

theorem prime_2657 : Nat.Prime 2657 := by norm_num

theorem prime_2731 : Nat.Prime 2731 := by norm_num

theorem prime_2861 : Nat.Prime 2861 := by norm_num

theorem prime_4051 : Nat.Prime 4051 := by norm_num

theorem prime_4423 : Nat.Prime 4423 := by norm_num

theorem prime_5323 : Nat.Prime 5323 := by norm_num

theorem prime_7723 : Nat.Prime 7723 := by norm_num

theorem prime_9349 : Nat.Prime 9349 := by norm_num

theorem prime_13441 : Nat.Prime 13441 := by norm_num

theorem prime_16699 : Nat.Prime 16699 := by norm_num

theorem prime_20113 : Nat.Prime 20113 := by norm_num

theorem prime_24809 : Nat.Prime 24809 := by norm_num

theorem prime_28181 : Nat.Prime 28181 := by norm_num

theorem prime_41201 : Nat.Prime 41201 := by norm_num

theorem prime_85831 : Nat.Prime 85831 := by norm_num

theorem prime_96557 : Nat.Prime 96557 := by norm_num

theorem prime_120233 : Nat.Prime 120233 := by norm_num

theorem prime_305873 : Nat.Prime 305873 := by norm_num

theorem prime_1206781 : Nat.Prime 1206781 :=
  prime_of_lucas_cert 1206781 10 [(2, 2), (3, 1), (5, 1), (20113, 1)]
    (by norm_num) (by norm_num) (by decide)
    (by
      intro pe h
      simp only [List.mem_cons, List.not_mem_nil, or_false] at h
      rcases h with rfl | rfl | rfl | rfl
      · exact prime_2
      · exact prime_3
      · exact prime_5
      · exact prime_20113)
    (by decide) (by decide)

theorem prime_1627771 : Nat.Prime 1627771 :=
  prime_of_lucas_cert 1627771 3 [(2, 1), (3, 1), (5, 1), (29, 1), (1871, 1)]
    (by norm_num) (by norm_num) (by decide)
    (by
      intro pe h
      simp only [List.mem_cons, List.not_mem_nil, or_false] at h
      rcases h with rfl | rfl | rfl | rfl | rfl
      · exact prime_2
      · exact prime_3
      · exact prime_5
      · exact prime_29
      · exact prime_1871)
    (by decide) (by decide)

theorem prime_4681609 : Nat.Prime 4681609 :=
  prime_of_lucas_cert 4681609 23 [(2, 3), (3, 1), (97, 1), (2011, 1)]
    (by norm_num) (by norm_num) (by decide)
    (by
      intro pe h
      simp only [List.mem_cons, List.not_mem_nil, or_false] at h
      rcases h with rfl | rfl | rfl | rfl
      · exact prime_2
      · exact prime_3
      · exact prime_97
      · exact prime_2011)
    (by decide) (by decide)

theorem prime_7240687 : Nat.Prime 7240687 :=
  prime_of_lucas_cert 7240687 3 [(2, 1), (3, 1), (1206781, 1)]
    (by norm_num) (by norm_num) (by decide)
    (by
      intro pe h
      simp only [List.mem_cons, List.not_mem_nil, or_false] at h
      rcases h with rfl | rfl | rfl
      · exact prime_2
      · exact prime_3
      · exact prime_1206781)
    (by decide) (by decide)

theorem prime_13331831 : Nat.Prime 13331831 :=
  prime_of_lucas_cert 13331831 13 [(2, 1), (5, 1), (971, 1), (1373, 1)]
    (by norm_num) (by norm_num) (by decide)
    (by
      intro pe h
      simp only [List.mem_cons, List.not_mem_nil, or_false] at h
      rcases h with rfl | rfl | rfl | rfl
      · exact prime_2
      · exact prime_5
      · exact prime_971
      · exact prime_1373)
    (by decide) (by decide)

theorem prime_44706919 : Nat.Prime 44706919 :=
  prime_of_lucas_cert 44706919 6 [(2, 1), (3, 1), (797, 1), (9349, 1)]
    (by norm_num) (by norm_num) (by decide)
    (by
      intro pe h
      simp only [List.mem_cons, List.not_mem_nil, or_false] at h
      rcases h with rfl | rfl | rfl | rfl
      · exact prime_2
      · exact prime_3
      · exact prime_797
      · exact prime_9349)
    (by decide) (by decide)

theorem prime_107590001 : Nat.Prime 107590001 :=
  prime_of_lucas_cert 107590001 3 [(2, 4), (5, 4), (7, 1), (29, 1), (53, 1)]
    (by norm_num) (by norm_num) (by decide)
    (by
      intro pe h
      simp only [List.mem_cons, List.not_mem_nil, or_false] at h
      rcases h with rfl | rfl | rfl | rfl | rfl
      · exact prime_2
      · exact prime_5
      · exact prime_7
      · exact prime_29
      · exact prime_53)
    (by decide) (by decide)

theorem prime_545358713 : Nat.Prime 545358713 :=
  prime_of_lucas_cert 545358713 5 [(2, 3), (41, 1), (59, 1), (28181, 1)]
    (by norm_num) (by norm_num) (by decide)
    (by
      intro pe h
      simp only [List.mem_cons, List.not_mem_nil, or_false] at h
      rcases h with rfl | rfl | rfl | rfl
      · exact prime_2
      · exact prime_41
      · exact prime_59
      · exact prime_28181)
    (by decide) (by decide)

theorem prime_297159362677 : Nat.Prime 297159362677 :=
  prime_of_lucas_cert 297159362677 2 [(2, 2), (3, 2), (11, 1), (461, 1), (1627771, 1)]
    (by norm_num) (by norm_num) (by decide)
    (by
      intro pe h
      simp only [List.mem_cons, List.not_mem_nil, or_false] at h
      rcases h with rfl | rfl | rfl | rfl | rfl
      · exact prime_2
      · exact prime_3
      · exact prime_11
      · exact prime_461
      · exact prime_1627771)
    (by decide) (by decide)

theorem prime_107361793816595537 : Nat.Prime 107361793816595537 :=
  prime_of_lucas_cert 107361793816595537 3 [(2, 4), (16699, 1), (85831, 1), (4681609, 1)]
    (by norm_num) (by norm_num) (by decide)
    (by
      intro pe h
      simp only [List.mem_cons, List.not_mem_nil, or_false] at h
      rcases h with rfl | rfl | rfl | rfl
      · exact prime_2
      · exact prime_16699
      · exact prime_85831
      · exact prime_4681609)
    (by decide) (by decide)

theorem prime_173378833005251801 : Nat.Prime 173378833005251801 :=
  prime_of_lucas_cert 173378833005251801 6 [(2, 3), (5, 2), (2621, 1), (24809, 1), (13331831, 1)]
    (by norm_num) (by norm_num) (by decide)
    (by
      intro pe h
      simp only [List.mem_cons, List.not_mem_nil, or_false] at h
      rcases h with rfl | rfl | rfl | rfl | rfl
      · exact prime_2
      · exact prime_5
      · exact prime_2621
      · exact prime_24809
      · exact prime_13331831)
    (by decide) (by decide)

theorem prime_174723607534414371449 : Nat.Prime 174723607534414371449 :=
  prime_of_lucas_cert 174723607534414371449 3 [(2, 3), (17, 1), (59, 1), (4051, 1), (120233, 1), (44706919, 1)]
    (by norm_num) (by norm_num) (by decide)
    (by
      intro pe h
      simp only [List.mem_cons, List.not_mem_nil, or_false] at h
      rcases h with rfl | rfl | rfl | rfl | rfl | rfl
      · exact prime_2
      · exact prime_17
      · exact prime_59
      · exact prime_4051
      · exact prime_120233
      · exact prime_44706919)
    (by decide) (by decide)

theorem prime_22149492674086928081353 : Nat.Prime 22149492674086928081353 :=
  prime_of_lucas_cert 22149492674086928081353 5 [(2, 3), (3, 1), (5323, 1), (173378833005251801, 1)]
    (by norm_num) (by norm_num) (by decide)
    (by
      intro pe h
      simp only [List.mem_cons, List.not_mem_nil, or_false] at h
      rcases h with rfl | rfl | rfl | rfl
      · exact prime_2
      · exact prime_3
      · exact prime_5323
      · exact prime_173378833005251801)
    (by decide) (by decide)

theorem prime_132896956044521568488119 : Nat.Prime 132896956044521568488119 :=
  prime_of_lucas_cert 132896956044521568488119 6 [(2, 1), (3, 1), (22149492674086928081353, 1)]
    (by norm_num) (by norm_num) (by decide)
    (by
      intro pe h
      simp only [List.mem_cons, List.not_mem_nil, or_false] at h
      rcases h with rfl | rfl | rfl
      · exact prime_2
      · exact prime_3
      · exact prime_22149492674086928081353)
    (by decide) (by decide)

theorem prime_29047611873442575647497758179 : Nat.Prime 29047611873442575647497758179 :=
  prime_of_lucas_cert 29047611873442575647497758179 2 [(2, 1), (293, 1), (305873, 1), (545358713, 1), (297159362677, 1)]
    (by norm_num) (by norm_num) (by decide)
    (by
      intro pe h
      simp only [List.mem_cons, List.not_mem_nil, or_false] at h
      rcases h with rfl | rfl | rfl | rfl | rfl
      · exact prime_2
      · exact prime_293
      · exact prime_305873
      · exact prime_545358713
      · exact prime_297159362677)
    (by decide) (by decide)

theorem prime_341948486974166000522343609283189 : Nat.Prime 341948486974166000522343609283189 :=
  prime_of_lucas_cert 341948486974166000522343609283189 2 [(2, 2), (3, 3), (109, 1), (29047611873442575647497758179, 1)]
    (by norm_num) (by norm_num) (by decide)
    (by
      intro pe h
      simp only [List.mem_cons, List.not_mem_nil, or_false] at h
      rcases h with rfl | rfl | rfl | rfl
      · exact prime_2
      · exact prime_3
      · exact prime_109
      · exact prime_29047611873442575647497758179)
    (by decide) (by decide)

theorem prime_255515944373312847190720520512484175977 : Nat.Prime 255515944373312847190720520512484175977 :=
  prime_of_lucas_cert 255515944373312847190720520512484175977 3 [(2, 3), (7, 2), (11, 1), (1627, 1), (2657, 1), (4423, 1), (41201, 1), (96557, 1), (7240687, 1), (107590001, 1)]
    (by norm_num) (by norm_num) (by decide)
    (by
      intro pe h
      simp only [List.mem_cons, List.not_mem_nil, or_false] at h
      rcases h with rfl | rfl | rfl | rfl | rfl | rfl | rfl | rfl | rfl | rfl
      · exact prime_2
      · exact prime_7
      · exact prime_11
      · exact prime_1627
      · exact prime_2657
      · exact prime_4423
      · exact prime_41201
      · exact prime_96557
      · exact prime_7240687
      · exact prime_107590001)
    (by decide) (by decide)

theorem prime_205115282021455665897114700593932402728804164701536103180137503955397371 : Nat.Prime 205115282021455665897114700593932402728804164701536103180137503955397371 :=
  prime_of_lucas_cert 205115282021455665897114700593932402728804164701536103180137503955397371 10 [(2, 1), (3, 1), (5, 1), (29, 2), (31, 1), (7723, 1), (132896956044521568488119, 1), (255515944373312847190720520512484175977, 1)]
    (by norm_num) (by norm_num) (by decide)
    (by
      intro pe h
      simp only [List.mem_cons, List.not_mem_nil, or_false] at h
      rcases h with rfl | rfl | rfl | rfl | rfl | rfl | rfl | rfl
      · exact prime_2
      · exact prime_3
      · exact prime_5
      · exact prime_29
      · exact prime_31
      · exact prime_7723
      · exact prime_132896956044521568488119
      · exact prime_255515944373312847190720520512484175977)
    (by decide) (by decide)

theorem prime_N0 : Nat.Prime 115792089237316195423570985008687907852837564279074904382605163141518161494337 :=
  prime_of_lucas_cert 115792089237316195423570985008687907852837564279074904382605163141518161494337 7 [(2, 6), (3, 1), (149, 1), (631, 1), (107361793816595537, 1), (174723607534414371449, 1), (341948486974166000522343609283189, 1)]
    (by norm_num) (by norm_num) (by decide)
    (by
      intro pe h
      simp only [List.mem_cons, List.not_mem_nil, or_false] at h
      rcases h with rfl | rfl | rfl | rfl | rfl | rfl | rfl
      · exact prime_2
      · exact prime_3
      · exact prime_149
      · exact prime_631
      · exact prime_107361793816595537
      · exact prime_174723607534414371449
      · exact prime_341948486974166000522343609283189)
    (by decide) (by decide)

theorem prime_P0 : Nat.Prime 115792089237316195423570985008687907853269984665640564039457584007908834671663 :=
  prime_of_lucas_cert 115792089237316195423570985008687907853269984665640564039457584007908834671663 3 [(2, 1), (3, 1), (7, 1), (13441, 1), (205115282021455665897114700593932402728804164701536103180137503955397371, 1)]
    (by norm_num) (by norm_num) (by decide)
    (by
      intro pe h
      simp only [List.mem_cons, List.not_mem_nil, or_false] at h
      rcases h with rfl | rfl | rfl | rfl | rfl
      · exact prime_2
      · exact prime_3
      · exact prime_7
      · exact prime_13441
      · exact prime_205115282021455665897114700593932402728804164701536103180137503955397371)
    (by decide) (by decide)


/-! ### secp256k1 parameters

Modelled from the spec: the curve secp256k1 (glossary: "the elliptic curve
(secp256k1) over which all scalar/point arithmetic is defined"), its field
characteristic `P0`, group order `N0` and base point `(Gx, Gy)`. -/

/-- The field characteristic of secp256k1. -/
def P0 : Nat := 115792089237316195423570985008687907853269984665640564039457584007908834671663

/-- The group order of secp256k1. -/
def N0 : Nat := 115792089237316195423570985008687907852837564279074904382605163141518161494337

/-- x-coordinate of the secp256k1 base point. -/
def Gx : Nat := 0x79BE667EF9DCBBAC55A06295CE870B07029BFCDB2DCE28D959F2815B16F81798

/-- y-coordinate of the secp256k1 base point. -/
def Gy : Nat := 0x483ADA7726A3C4655DA4FBFC0E1108A8FD17B448A68554199C47D08FFB10D4B8

theorem P0_prime : Nat.Prime P0 := prime_P0

theorem N0_prime : Nat.Prime N0 := prime_N0

instance : Fact (Nat.Prime P0) := ⟨P0_prime⟩

instance : Fact (Nat.Prime N0) := ⟨N0_prime⟩

theorem P0_pos : 0 < P0 := by norm_num [P0]

theorem N0_pos : 0 < N0 := by norm_num [N0]

/-- The secp256k1 curve `y² = x³ + 7` as an affine Weierstrass curve over
its prime field. -/
def secp : WeierstrassCurve.Affine (ZMod P0) :=
  { a₁ := 0, a₂ := 0, a₃ := 0, a₄ := 0, a₆ := 7 }

/-! ### Computable curve arithmetic

Modelled from the spec: "full curve group arithmetic" and "a Secret
deterministically maps to exactly one Point per compression choice via
scalar multiplication by the curve's base point".  Points are the point at
infinity or affine coordinate pairs of naturals below `P0`; the group
operations are the chord-and-tangent formulas with field inversion realised
as exponentiation by `P0 - 2`. -/

/-- An internal curve point of the engine model: the point at infinity or an
affine pair of coordinates (naturals, interpreted modulo `P0`). -/
inductive Pt
  | inf
  | aff (x y : Nat)
deriving DecidableEq

/-- Field inversion modulo `P0` (Fermat). -/
def finv (z : Nat) : Nat := powMod z (P0 - 2) P0

/-- Chord-and-tangent addition of curve points. -/
def pAdd : Pt → Pt → Pt
  | .inf, B => B
  | A, .inf => A
  | .aff x1 y1, .aff x2 y2 =>
    if x1 = x2 then
      if (y1 + y2) % P0 = 0 then .inf
      else
        let l := 3 * x1 * x1 % P0 * finv ((y1 + y1) % P0) % P0
        let x3 := (l * l + 2 * P0 - x1 - x2) % P0
        .aff x3 ((l * ((x1 + P0 - x3) % P0) % P0 + P0 - y1) % P0)
    else
      let l := (y1 + P0 - y2) % P0 * finv ((x1 + P0 - x2) % P0) % P0
      let x3 := (l * l + 2 * P0 - x1 - x2) % P0
      .aff x3 ((l * ((x1 + P0 - x3) % P0) % P0 + P0 - y1) % P0)

/-- Binary scalar multiplication (fuel-structural). -/
def smulAux : Nat → Nat → Pt → Pt
  | 0, _, _ => .inf
  | f + 1, k, A =>
    if k = 0 then .inf
    else
      let r := smulAux f (k / 2) (pAdd A A)
      if k % 2 = 1 then pAdd r A else r

/-- Scalar multiplication of a curve point. -/
def smul (k : Nat) (A : Pt) : Pt := smulAux 320 k A

/-- The base point of secp256k1 in the engine model. -/
def G : Pt := .aff Gx Gy

/-- Whether a model point is a finite point on the curve (reduced
coordinates satisfying the curve equation). -/
def onCurveB : Pt → Bool
  | .inf => false
  | .aff x y => decide (x < P0) && decide (y < P0) && (y * y % P0 == (x * x % P0 * x + 7) % P0)

/-! ### Correspondence with the Mathlib curve group -/

/-- The affine coordinates of a Mathlib point on `secp`, `none` at infinity. -/
def coords : secp.Point → Option (ZMod P0 × ZMod P0)
  | .zero => none
  | @WeierstrassCurve.Affine.Point.some _ _ _ x y _ => some (x, y)

/-- The simulation relation between engine-model points and Mathlib points. -/
def PtRel (A : Pt) (Q : secp.Point) : Prop :=
  match A with
  | .inf => coords Q = none
  | .aff x y => x < P0 ∧ y < P0 ∧ coords Q = some ((x : ZMod P0), (y : ZMod P0))

theorem coords_injective : ∀ {Q R : secp.Point}, coords Q = coords R → Q = R := by
  intro Q R h
  cases Q with
  | zero => cases R with
    | zero => rfl
    | some hR => simp [coords] at h
  | some hQ => cases R with
    | zero => simp [coords] at h
    | some hR =>
      simp only [coords, Option.some.injEq, Prod.mk.injEq] at h
      obtain ⟨hx, hy⟩ := h
      subst hx; subst hy
      rfl

theorem coords_eq_none_iff {Q : secp.Point} : coords Q = none ↔ Q = 0 := by
  cases Q with
  | zero => simp [coords]; rfl
  | some h =>
    simp only [coords]
    constructor
    · intro h; cases h
    · intro h; cases h

theorem coords_eq_some {Q : secp.Point} {a b : ZMod P0} (h : coords Q = some (a, b)) :
    ∃ hN : secp.Nonsingular a b, Q = WeierstrassCurve.Affine.Point.some hN := by
  cases Q with
  | zero => simp [coords] at h
  | some hN =>
    simp only [coords, Option.some.injEq, Prod.mk.injEq] at h
    obtain ⟨h1, h2⟩ := h
    subst h1; subst h2
    exact ⟨hN, rfl⟩

theorem secp_negY (x y : ZMod P0) : secp.negY x y = -y := by
  simp [WeierstrassCurve.Affine.negY, secp]

theorem secp_equation_iff (x y : ZMod P0) :
    secp.Equation x y ↔ y ^ 2 = x ^ 3 + 7 := by
  rw [WeierstrassCurve.Affine.equation_iff]
  simp [secp]

theorem cast_inj_lt {a b : Nat} (ha : a < P0) (hb : b < P0) :
    ((a : ZMod P0) = (b : ZMod P0)) ↔ a = b := by
  constructor
  · intro h
    have := congrArg ZMod.val h
    rwa [ZMod.val_natCast_of_lt ha, ZMod.val_natCast_of_lt hb] at this
  · intro h; rw [h]

theorem cast_eq_zero_iff_mod (a : Nat) : ((a : ZMod P0) = 0) ↔ a % P0 = 0 := by
  rw [show ((0 : ZMod P0) = ((0 : Nat) : ZMod P0)) from rfl, ZMod.natCast_eq_natCast_iff']
  simp

theorem secp_Δ : secp.Δ = -21168 := by
  simp [WeierstrassCurve.Δ, WeierstrassCurve.b₂, WeierstrassCurve.b₄, WeierstrassCurve.b₆,
    WeierstrassCurve.b₈, secp]
  norm_num

theorem secp_Δ_ne_zero : secp.Δ ≠ 0 := by
  rw [secp_Δ]
  intro h
  rw [neg_eq_zero] at h
  have h2 : ((21168 : Nat) : ZMod P0) = 0 := by exact_mod_cast h
  rw [cast_eq_zero_iff_mod] at h2
  norm_num [P0] at h2

theorem secp_nonsingular {x y : ZMod P0} (h : secp.Equation x y) : secp.Nonsingular x y :=
  secp.nonsingular_of_Δ_ne_zero h secp_Δ_ne_zero

theorem finv_cast (z : Nat) : ((finv z : Nat) : ZMod P0) = (z : ZMod P0)⁻¹ := by
  have h2 : 2 ≤ P0 := by norm_num [P0]
  rw [finv, powMod_eq z (P0 - 2) P0 P0_pos (by norm_num [P0]), ZMod.natCast_mod, Nat.cast_pow]
  by_cases hz : (z : ZMod P0) = 0
  · rw [hz, inv_zero]
    exact zero_pow (by norm_num [P0])
  · have h1 : (z : ZMod P0) * (z : ZMod P0) ^ (P0 - 2) = 1 := by
      rw [mul_comm, ← pow_succ, show P0 - 2 + 1 = P0 - 1 by norm_num [P0]]
      exact ZMod.pow_card_sub_one_eq_one hz
    exact (inv_eq_of_mul_eq_one_right h1).symm

theorem cast_slope_tangent (x1 y1 : Nat) :
    ((3 * x1 * x1 % P0 * finv ((y1 + y1) % P0) % P0 : Nat) : ZMod P0) =
      (3 * (x1 : ZMod P0) ^ 2 + 2 * secp.a₂ * x1 + secp.a₄ - secp.a₁ * y1) /
        ((y1 : ZMod P0) - secp.negY x1 y1) := by
  rw [ZMod.natCast_mod, Nat.cast_mul, ZMod.natCast_mod, finv_cast, ZMod.natCast_mod,
    secp_negY]
  push_cast
  simp only [secp]
  ring_nf

theorem cast_slope_chord (x1 y1 x2 y2 : Nat) (hx2 : x2 < P0) (hy2 : y2 < P0) :
    (((y1 + P0 - y2) % P0 * finv ((x1 + P0 - x2) % P0) % P0 : Nat) : ZMod P0) =
      ((y1 : ZMod P0) - y2) / ((x1 : ZMod P0) - x2) := by
  rw [ZMod.natCast_mod, Nat.cast_mul, ZMod.natCast_mod, finv_cast, ZMod.natCast_mod,
    Nat.cast_sub (by omega), Nat.cast_sub (by omega)]
  push_cast [ZMod.natCast_self]
  ring_nf

theorem cast_addX (x1 x2 l : Nat) (hx1 : x1 < P0) (hx2 : x2 < P0) :
    (((l * l + 2 * P0 - x1 - x2) % P0 : Nat) : ZMod P0) =
      secp.addX (x1 : ZMod P0) (x2 : ZMod P0) (l : ZMod P0) := by
  rw [WeierstrassCurve.Affine.addX, Nat.sub_sub, ZMod.natCast_mod,
    Nat.cast_sub (by omega)]
  push_cast [ZMod.natCast_self]
  simp only [secp]
  ring

theorem cast_addY (x1 x2 y1 l : Nat) (hx1 : x1 < P0) (hx2 : x2 < P0) (hy1 : y1 < P0) :
    (((l * ((x1 + P0 - (l * l + 2 * P0 - x1 - x2) % P0) % P0) % P0 + P0 - y1) % P0 : Nat) :
        ZMod P0) =
      secp.addY (x1 : ZMod P0) (x2 : ZMod P0) (y1 : ZMod P0) (l : ZMod P0) := by
  set t := (l * l + 2 * P0 - x1 - x2) % P0 with hts
  have htlt : t < P0 := by rw [hts]; exact Nat.mod_lt _ P0_pos
  have ht : (t : ZMod P0) = secp.addX (x1 : ZMod P0) (x2 : ZMod P0) (l : ZMod P0) := by
    rw [hts]; exact cast_addX x1 x2 l hx1 hx2
  rw [WeierstrassCurve.Affine.addY, WeierstrassCurve.Affine.negAddY, secp_negY, ← ht]
  rw [ZMod.natCast_mod, Nat.cast_sub (by omega), Nat.cast_add, ZMod.natCast_mod,
    Nat.cast_mul, ZMod.natCast_mod, Nat.cast_sub (by omega), Nat.cast_add,
    ZMod.natCast_self]
  ring

/-- `pAdd` simulates addition in the Mathlib curve group. -/
theorem PtRel_pAdd {A B : Pt} {Q R : secp.Point} (hA : PtRel A Q) (hB : PtRel B R) :
    PtRel (pAdd A B) (Q + R) := by
  cases A with
  | inf =>
    have hQ : Q = 0 := coords_eq_none_iff.mp hA
    subst hQ
    rw [zero_add]
    cases B <;> exact hB
  | aff x1 y1 =>
    cases B with
    | inf =>
      have hR : R = 0 := coords_eq_none_iff.mp hB
      subst hR
      rw [add_zero]
      exact hA
    | aff x2 y2 =>
      obtain ⟨hx1, hy1, hcQ⟩ := hA
      obtain ⟨hx2, hy2, hcR⟩ := hB
      obtain ⟨h₁, rfl⟩ := coords_eq_some hcQ
      obtain ⟨h₂, rfl⟩ := coords_eq_some hcR
      show PtRel (pAdd (.aff x1 y1) (.aff x2 y2)) _
      rw [pAdd]
      by_cases hxx : x1 = x2
      · by_cases hyy : (y1 + y2) % P0 = 0
        · rw [if_pos hxx, if_pos hyy]
          have hy : (y1 : ZMod P0) = secp.negY (x2 : ZMod P0) (y2 : ZMod P0) := by
            rw [secp_negY, eq_neg_iff_add_eq_zero, ← Nat.cast_add, cast_eq_zero_iff_mod]
            exact hyy
          rw [WeierstrassCurve.Affine.Point.add_of_Y_eq (by rw [hxx]) hy]
          show coords (0 : secp.Point) = none
          rfl
        · rw [if_pos hxx, if_neg hyy]
          subst hxx
          have hy : (y1 : ZMod P0) ≠ secp.negY (x1 : ZMod P0) (y2 : ZMod P0) := by
            rw [secp_negY]
            intro hcon
            apply hyy
            rw [← cast_eq_zero_iff_mod, Nat.cast_add, hcon]
            ring
          rw [WeierstrassCurve.Affine.Point.add_of_Y_ne hy]
          have hl : ((3 * x1 * x1 % P0 * finv ((y1 + y1) % P0) % P0 : Nat) : ZMod P0) =
              secp.slope (x1 : ZMod P0) (x1 : ZMod P0) (y1 : ZMod P0) (y2 : ZMod P0) := by
            rw [WeierstrassCurve.Affine.slope_of_Y_ne rfl hy]
            exact cast_slope_tangent x1 y1
          refine ⟨Nat.mod_lt _ P0_pos, Nat.mod_lt _ P0_pos, ?_⟩
          simp only [coords, Option.some.injEq, Prod.mk.injEq]
          exact ⟨by rw [cast_addX _ _ _ hx1 hx2, hl], by rw [cast_addY _ _ _ _ hx1 hx2 hy1, hl]⟩
      · rw [if_neg hxx]
        have hx : (x1 : ZMod P0) ≠ (x2 : ZMod P0) := fun h => hxx ((cast_inj_lt hx1 hx2).mp h)
        rw [WeierstrassCurve.Affine.Point.add_of_X_ne hx]
        have hl : (((y1 + P0 - y2) % P0 * finv ((x1 + P0 - x2) % P0) % P0 : Nat) : ZMod P0) =
            secp.slope (x1 : ZMod P0) (x2 : ZMod P0) (y1 : ZMod P0) (y2 : ZMod P0) := by
          rw [WeierstrassCurve.Affine.slope_of_X_ne hx]
          exact cast_slope_chord x1 y1 x2 y2 hx2 hy2
        refine ⟨Nat.mod_lt _ P0_pos, Nat.mod_lt _ P0_pos, ?_⟩
        simp only [coords, Option.some.injEq, Prod.mk.injEq]
        exact ⟨by rw [cast_addX _ _ _ hx1 hx2, hl], by rw [cast_addY _ _ _ _ hx1 hx2 hy1, hl]⟩

theorem PtRel_inf_zero : PtRel Pt.inf (0 : secp.Point) := rfl

/-- `smulAux` simulates `ℕ`-scalar multiplication in the curve group. -/
theorem PtRel_smulAux (f : Nat) : ∀ (k : Nat) {A : Pt} {Q : secp.Point}, k < 2 ^ f →
    PtRel A Q → PtRel (smulAux f k A) (k • Q) := by
  induction f with
  | zero =>
    intro k A Q hk hA
    interval_cases k
    rw [zero_nsmul]
    exact PtRel_inf_zero
  | succ f ih =>
    intro k A Q hk hA
    rw [smulAux]
    by_cases hk0 : k = 0
    · subst hk0
      rw [if_pos rfl, zero_nsmul]
      exact PtRel_inf_zero
    · rw [if_neg hk0]
      have hdiv : k / 2 < 2 ^ f := by
        rw [Nat.div_lt_iff_lt_mul (by norm_num)]
        calc k < 2 ^ (f + 1) := hk
        _ = 2 ^ f * 2 := by ring
      have hrec := ih (k / 2) hdiv (PtRel_pAdd hA hA)
      by_cases hpar : k % 2 = 1
      · rw [if_pos hpar]
        have hk2 : k = k / 2 * 2 + 1 := by omega
        have hQQ : k • Q = (k / 2) • (Q + Q) + Q := by
          conv_lhs => rw [hk2]
          rw [succ_nsmul, mul_nsmul, two_nsmul, nsmul_add]
        rw [hQQ]
        exact PtRel_pAdd hrec hA
      · rw [if_neg hpar]
        have hk2 : k = k / 2 * 2 := by omega
        have hQQ : k • Q = (k / 2) • (Q + Q) := by
          conv_lhs => rw [hk2]
          rw [mul_nsmul, two_nsmul, nsmul_add]
        rw [hQQ]
        exact hrec

theorem PtRel_smul (k : Nat) {A : Pt} {Q : secp.Point} (hk : k < 2 ^ 320)
    (hA : PtRel A Q) : PtRel (smul k A) (k • Q) :=
  PtRel_smulAux 320 k hk hA

theorem G_equation : secp.Equation (Gx : ZMod P0) (Gy : ZMod P0) := by
  rw [secp_equation_iff]
  decide

theorem G_nonsingular : secp.Nonsingular (Gx : ZMod P0) (Gy : ZMod P0) :=
  secp_nonsingular G_equation

/-- The Mathlib-side base point. -/
def GQ : secp.Point := WeierstrassCurve.Affine.Point.some G_nonsingular

theorem PtRel_G : PtRel G GQ :=
  ⟨by norm_num [Gx, P0], by norm_num [Gy, P0], rfl⟩

set_option maxHeartbeats 8000000 in
/-- The base point has order `N0`: concrete 256-step ladder computation. -/
theorem smul_N0_G : smul N0 G = Pt.inf := by decide

theorem nsmul_GQ_eq_zero_of_smul_eq_inf {k : Nat} (hk : k < 2 ^ 320)
    (h : smul k G = Pt.inf) : k • GQ = 0 := by
  have h2 := PtRel_smul k hk PtRel_G
  rw [h] at h2
  exact coords_eq_none_iff.mp h2

theorem N0_nsmul_GQ : N0 • GQ = 0 :=
  nsmul_GQ_eq_zero_of_smul_eq_inf (by norm_num [N0]) smul_N0_G

theorem GQ_ne_zero : GQ ≠ 0 :=
  WeierstrassCurve.Affine.Point.some_ne_zero _

theorem addOrderOf_GQ : addOrderOf GQ = N0 := by
  have hdvd : addOrderOf GQ ∣ N0 := addOrderOf_dvd_of_nsmul_eq_zero N0_nsmul_GQ
  rcases (Nat.Prime.eq_one_or_self_of_dvd N0_prime _ hdvd) with h | h
  · exact absurd (AddMonoid.addOrderOf_eq_one_iff.mp h) GQ_ne_zero
  · exact h

theorem nsmul_GQ_eq_zero_iff (k : Nat) : k • GQ = 0 ↔ N0 ∣ k := by
  rw [← addOrderOf_GQ]
  exact addOrderOf_dvd_iff_nsmul_eq_zero.symm

theorem nsmul_GQ_ne_zero {k : Nat} (hk : 0 < k) (hkN : k < N0) : k • GQ ≠ 0 := by
  intro h0
  rw [nsmul_GQ_eq_zero_iff] at h0
  exact absurd (Nat.le_of_dvd hk h0) (by omega)

/-- Points in the subgroup generated by the base point have nonzero
y-coordinate: the group order is an odd prime, so there is no 2-torsion. -/
theorem rel_y_ne_zero {x y k : Nat} (hk : 0 < k) (hkN : k < N0)
    (hrel : PtRel (Pt.aff x y) (k • GQ)) : y ≠ 0 := by
  intro hy0
  subst hy0
  obtain ⟨hx, hy, hc⟩ := hrel
  obtain ⟨hN, hQ⟩ := coords_eq_some hc
  have h2 : (k * 2) • GQ = 0 := by
    rw [mul_nsmul, two_nsmul, hQ]
    exact WeierstrassCurve.Affine.Point.add_of_Y_eq rfl (by rw [secp_negY, Nat.cast_zero, neg_zero])
  rw [nsmul_GQ_eq_zero_iff] at h2
  rcases (Nat.Prime.dvd_mul N0_prime).mp h2 with h | h
  · exact absurd (Nat.le_of_dvd hk h) (by omega)
  · have := Nat.le_of_dvd (by norm_num) h
    norm_num [N0] at this

/-! ### Byte sequences

The wrapper types (`ec_secret`, `ec_point`, `hash_digest`, `data_chunk`)
are byte containers; bytes are modelled as naturals below 256 in big-endian
order, matching the engine's `secp256k1_num_set_bin` interpretation. -/

/-- Fixed-length big-endian bytes of `n` (modulo `256 ^ l`). -/
def beBytes : Nat → Nat → List Nat
  | 0, _ => []
  | l + 1, n => beBytes l (n / 256) ++ [n % 256]

/-- Big-endian value of a byte list. -/
def bytesToNat (bs : List Nat) : Nat := bs.foldl (fun acc b => acc * 256 + b) 0

theorem beBytes_length (l : Nat) : ∀ n, (beBytes l n).length = l := by
  induction l with
  | zero => intro n; rfl
  | succ l ih =>
    intro n
    rw [beBytes, List.length_append, ih]
    simp

theorem bytesToNat_foldl (bs : List Nat) : ∀ a : Nat,
    bs.foldl (fun acc b => acc * 256 + b) a = a * 256 ^ bs.length + bytesToNat bs := by
  induction bs with
  | nil => intro a; simp [bytesToNat]
  | cons b rest ih =>
    intro a
    rw [List.foldl_cons, ih (a * 256 + b)]
    have h0 : bytesToNat (b :: rest) = b * 256 ^ rest.length + bytesToNat rest := by
      rw [bytesToNat, List.foldl_cons]
      simp only [Nat.zero_mul, Nat.zero_add]
      rw [ih b]
    rw [h0, List.length_cons]
    ring

theorem bytesToNat_append (xs ys : List Nat) :
    bytesToNat (xs ++ ys) = bytesToNat xs * 256 ^ ys.length + bytesToNat ys := by
  rw [bytesToNat, List.foldl_append, ← bytesToNat, bytesToNat_foldl]

theorem bytesToNat_beBytes (l : Nat) : ∀ n, n < 256 ^ l → bytesToNat (beBytes l n) = n := by
  induction l with
  | zero =>
    intro n hn
    interval_cases n
    rfl
  | succ l ih =>
    intro n hn
    rw [beBytes, bytesToNat_append, ih (n / 256) (by
      rw [Nat.div_lt_iff_lt_mul (by norm_num)]
      calc n < 256 ^ (l + 1) := hn
      _ = 256 ^ l * 256 := by ring)]
    show n / 256 * 256 ^ ([n % 256].length) + bytesToNat [n % 256] = n
    have : bytesToNat [n % 256] = n % 256 := by
      simp [bytesToNat]
    rw [this, List.length_singleton, pow_one]
    omega

theorem bytesToNat_dropWhile_zero (bs : List Nat) :
    bytesToNat (bs.dropWhile (fun b => b == 0)) = bytesToNat bs := by
  induction bs with
  | nil => rfl
  | cons b rest ih =>
    by_cases hb : b = 0
    · subst hb
      rw [List.dropWhile_cons_of_pos (by simp), ih]
      simp only [bytesToNat, List.foldl_cons, Nat.zero_mul, Nat.zero_add]
    · rw [List.dropWhile_cons_of_neg (by simp [hb])]

/-! ### Point serialisation

Modelled from the spec: a Point is "either compressed (33 bytes,
recommended default) or uncompressed (65 bytes)"; parsing "decodes and
checks the point lies on the curve and is correctly encoded"; the point at
infinity is inexpressible. -/

/-- Candidate modular square root via the exponent `(P0+1)/4`
(`P0 ≡ 3 mod 4`). -/
def psqrt (a : Nat) : Nat := powMod a ((P0 + 1) / 4) P0

/-- Serialise a point: `0x02/0x03 ‖ x` compressed, `0x04 ‖ x ‖ y`
uncompressed, `none` at infinity. -/
def encodePoint (compressed : Bool) : Pt → Option (List Nat)
  | .inf => none
  | .aff x y =>
    if compressed then some ((if y % 2 = 0 then 2 else 3) :: beBytes 32 x)
    else some (4 :: (beBytes 32 x ++ beBytes 32 y))

/-- The curve right-hand side `x³ + 7` reduced modulo `P0`. -/
def rhs (x : Nat) : Nat := (x * x % P0 * x + 7) % P0

/-- Select the recovered y-coordinate matching the parity encoded by the
prefix byte `c`. -/
def selectY (c y0 : Nat) : Nat :=
  if y0 % 2 = (if c = 2 then 0 else 1) then y0 else (P0 - y0) % P0

/-- Accept the candidate y-coordinate if it satisfies the curve equation. -/
def checkY (x y : Nat) : Option Pt :=
  if y * y % P0 = rhs x then some (.aff x y) else none

/-- Parse a compressed or uncompressed point, checking the curve equation;
for a compressed point the y-coordinate is recovered by a modular square
root and the encoded parity bit. -/
def decodePoint (bs : List Nat) : Option Pt :=
  match bs with
  | [] => none
  | c :: rest =>
    if c = 2 ∨ c = 3 then
      if rest.length = 32 then
        if bytesToNat rest < P0 then
          checkY (bytesToNat rest) (selectY c (psqrt (rhs (bytesToNat rest))))
        else none
      else none
    else if c = 4 then
      if rest.length = 64 then
        if bytesToNat (rest.take 32) < P0 ∧ bytesToNat (rest.drop 32) < P0 then
          checkY (bytesToNat (rest.take 32)) (bytesToNat (rest.drop 32))
        else none
      else none
    else none

theorem P0_lt_bytes32 : P0 < 256 ^ 32 := by norm_num [P0]

theorem psqrt_lt (a : Nat) : psqrt a < P0 := by
  rw [psqrt, powMod_eq _ _ _ P0_pos (by norm_num [P0])]
  exact Nat.mod_lt _ P0_pos

theorem psqrt_cast (a : Nat) :
    ((psqrt a : Nat) : ZMod P0) = (a : ZMod P0) ^ ((P0 + 1) / 4) := by
  rw [psqrt, powMod_eq _ _ _ P0_pos (by norm_num [P0]), ZMod.natCast_mod, Nat.cast_pow]

/-- The square-root candidate of `y²` is `y` or `P0 - y`. -/
theorem psqrt_of_sq {y : Nat} (hy : y < P0) (hy0 : y ≠ 0) :
    psqrt (y * y % P0) = y ∨ psqrt (y * y % P0) = P0 - y := by
  have hyz : (y : ZMod P0) ≠ 0 := by
    intro h
    rw [cast_eq_zero_iff_mod, Nat.mod_eq_of_lt hy] at h
    exact hy0 h
  have hcast : ((psqrt (y * y % P0) : Nat) : ZMod P0) =
      ((y : ZMod P0) ^ 2) ^ ((P0 + 1) / 4) := by
    rw [psqrt_cast, ZMod.natCast_mod, Nat.cast_mul, sq]
  have hp2 : ((y : ZMod P0) ^ 2) ^ ((P0 + 1) / 4) =
      (y : ZMod P0) ^ ((P0 - 1) / 2) * y := by
    rw [← pow_mul, show 2 * ((P0 + 1) / 4) = (P0 - 1) / 2 + 1 by norm_num [P0], pow_succ]
  have hchi2 : ((y : ZMod P0) ^ ((P0 - 1) / 2)) ^ 2 = 1 := by
    rw [← pow_mul, show (P0 - 1) / 2 * 2 = P0 - 1 by norm_num [P0]]
    exact ZMod.pow_card_sub_one_eq_one hyz
  have hchi : (y : ZMod P0) ^ ((P0 - 1) / 2) = 1 ∨ (y : ZMod P0) ^ ((P0 - 1) / 2) = -1 := by
    have hfac : ((y : ZMod P0) ^ ((P0 - 1) / 2) - 1) *
        ((y : ZMod P0) ^ ((P0 - 1) / 2) + 1) = 0 := by
      linear_combination hchi2
    rcases mul_eq_zero.mp hfac with h | h
    · exact Or.inl (by linear_combination h)
    · exact Or.inr (by linear_combination h)
  rcases hchi with h | h
  · left
    have heq : ((psqrt (y * y % P0) : Nat) : ZMod P0) = (y : ZMod P0) := by
      rw [hcast, hp2, h, one_mul]
    exact (cast_inj_lt (psqrt_lt _) hy).mp heq
  · right
    have heq : ((psqrt (y * y % P0) : Nat) : ZMod P0) = ((P0 - y : Nat) : ZMod P0) := by
      rw [hcast, hp2, h, Nat.cast_sub (le_of_lt hy), ZMod.natCast_self]
      ring
    exact (cast_inj_lt (psqrt_lt _) (by omega)).mp heq

theorem sub_parity_ne {y : Nat} (hy : y < P0) (hy0 : y ≠ 0) : (P0 - y) % 2 ≠ y % 2 := by
  have hP : P0 % 2 = 1 := by norm_num [P0]
  omega

/-- Round trip for compressed point serialisation (no 2-torsion: `y ≠ 0`). -/
theorem decode_encode_compressed {x y : Nat} (hx : x < P0) (hy : y < P0) (hy0 : y ≠ 0)
    (hcurve : y * y % P0 = (x * x % P0 * x + 7) % P0) :
    decodePoint ((if y % 2 = 0 then 2 else 3) :: beBytes 32 x) = some (.aff x y) := by
  have hxlt : x < 256 ^ 32 := lt_trans hx P0_lt_bytes32
  have hval : bytesToNat (beBytes 32 x) = x := bytesToNat_beBytes 32 x hxlt
  have hlen : (beBytes 32 x).length = 32 := beBytes_length 32 x
  have hrhs : rhs x = y * y % P0 := hcurve.symm
  have hne := sub_parity_ne hy hy0
  by_cases hpar : y % 2 = 0
  · rw [if_pos hpar]
    rw [decodePoint]
    rw [if_pos (show (2 : Nat) = 2 ∨ (2 : Nat) = 3 from Or.inl rfl)]
    rw [hlen, if_pos rfl, hval, if_pos hx, hrhs]
    rcases psqrt_of_sq hy hy0 with hs | hs
    · rw [hs, selectY, if_pos (by simp [hpar]), checkY,
        if_pos (show y * y % P0 = rhs x from hcurve)]
    · rw [hs, selectY, if_neg (by simp; omega)]
      rw [show P0 - (P0 - y) = y by omega, Nat.mod_eq_of_lt hy, checkY,
        if_pos (show y * y % P0 = rhs x from hcurve)]
  · rw [if_neg hpar]
    rw [decodePoint]
    rw [if_pos (show (3 : Nat) = 2 ∨ (3 : Nat) = 3 from Or.inr rfl)]
    rw [hlen, if_pos rfl, hval, if_pos hx, hrhs]
    rcases psqrt_of_sq hy hy0 with hs | hs
    · rw [hs, selectY, if_pos (by simp; omega), checkY,
        if_pos (show y * y % P0 = rhs x from hcurve)]
    · rw [hs, selectY, if_neg (by simp; omega)]
      rw [show P0 - (P0 - y) = y by omega, Nat.mod_eq_of_lt hy, checkY,
        if_pos (show y * y % P0 = rhs x from hcurve)]

/-- Round trip for uncompressed point serialisation. -/
theorem decode_encode_uncompressed {x y : Nat} (hx : x < P0) (hy : y < P0)
    (hcurve : y * y % P0 = (x * x % P0 * x + 7) % P0) :
    decodePoint (4 :: (beBytes 32 x ++ beBytes 32 y)) = some (.aff x y) := by
  have hxlt : x < 256 ^ 32 := lt_trans hx P0_lt_bytes32
  have hylt : y < 256 ^ 32 := lt_trans hy P0_lt_bytes32
  rw [decodePoint]
  rw [if_neg (by norm_num), if_pos rfl]
  rw [if_pos (by rw [List.length_append, beBytes_length, beBytes_length])]
  rw [List.take_left' (beBytes_length 32 x), List.drop_left' (beBytes_length 32 x)]
  rw [bytesToNat_beBytes 32 x hxlt, bytesToNat_beBytes 32 y hylt]
  rw [if_pos ⟨hx, hy⟩, checkY, if_pos (show y * y % P0 = rhs x from hcurve)]

theorem curveNat_iff_equation {x y : Nat} :
    y * y % P0 = rhs x ↔ secp.Equation (x : ZMod P0) (y : ZMod P0) := by
  have h1 : ((y * y : Nat) : ZMod P0) = (y : ZMod P0) ^ 2 := by push_cast; ring
  have h2 : ((x * x % P0 * x + 7 : Nat) : ZMod P0) = (x : ZMod P0) ^ 3 + 7 := by
    push_cast [ZMod.natCast_mod]
    ring
  rw [secp_equation_iff, rhs, ← ZMod.natCast_eq_natCast_iff', h1, h2]

/-- The Mathlib point carried by a decoded affine pair. -/
def mkPoint {x y : Nat} (hc : y * y % P0 = rhs x) : secp.Point :=
  WeierstrassCurve.Affine.Point.some (secp_nonsingular (curveNat_iff_equation.mp hc))

theorem PtRel_mkPoint {x y : Nat} (hx : x < P0) (hy : y < P0)
    (hc : y * y % P0 = rhs x) : PtRel (.aff x y) (mkPoint hc) :=
  ⟨hx, hy, rfl⟩

theorem rel_curveNat {x y : Nat} {Q : secp.Point} (h : PtRel (.aff x y) Q) :
    y * y % P0 = rhs x := by
  obtain ⟨hx, hy, hcoo⟩ := h
  obtain ⟨hN, rfl⟩ := coords_eq_some hcoo
  exact curveNat_iff_equation.mpr hN.1

theorem onCurveB_of_rel {x y : Nat} {Q : secp.Point} (h : PtRel (.aff x y) Q) :
    onCurveB (.aff x y) = true := by
  have hc := rel_curveNat h
  obtain ⟨hx, hy, _⟩ := h
  simp only [onCurveB, Bool.and_eq_true, decide_eq_true_eq, beq_iff_eq]
  exact ⟨⟨hx, hy⟩, hc⟩

/-! ### DER-style signature encoding

Modelled from the spec: "a variable-length DER-style encoded byte sequence,
maximum size bound by a fixed upper limit (72 bytes)". -/

/-- Minimal big-endian integer field of a DER signature: leading zero bytes
stripped, one `0x00` restored when the top bit would read as a sign. -/
def derInt (n : Nat) : List Nat :=
  if (beBytes 33 n).dropWhile (fun b => b == 0) = [] then [0]
  else if 128 ≤ ((beBytes 33 n).dropWhile (fun b => b == 0)).headD 0 then
    0 :: (beBytes 33 n).dropWhile (fun b => b == 0)
  else (beBytes 33 n).dropWhile (fun b => b == 0)

/-- DER encoding `30 len 02 len(r) r 02 len(s) s` of a signature. -/
def encodeDER (r s : Nat) : List Nat :=
  48 :: ((derInt r).length + (derInt s).length + 4) :: 2 :: (derInt r).length ::
    (derInt r ++ 2 :: (derInt s).length :: derInt s)

/-- Strict parser for the DER layout produced by `encodeDER`. -/
def parseDER (sig : List Nat) : Option (Nat × Nat) :=
  match sig with
  | 48 :: len :: 2 :: lr :: rest =>
    match rest.drop lr with
    | 2 :: ls :: srest =>
      if (rest.take lr).length = lr ∧ srest.length = ls ∧ len = lr + ls + 4 ∧
          0 < lr ∧ 0 < ls then
        some (bytesToNat (rest.take lr), bytesToNat srest)
      else none
    | _ => none
  | _ => none

theorem bytesToNat_cons_zero (l : List Nat) : bytesToNat (0 :: l) = bytesToNat l := by
  simp only [bytesToNat, List.foldl_cons, Nat.zero_mul, Nat.zero_add]

theorem derInt_value (n : Nat) (hn : n < 256 ^ 33) : bytesToNat (derInt n) = n := by
  have hbase := bytesToNat_dropWhile_zero (beBytes 33 n)
  rw [bytesToNat_beBytes 33 n hn] at hbase
  rw [derInt]
  by_cases hdw : (beBytes 33 n).dropWhile (fun b => b == 0) = []
  · rw [if_pos hdw]
    rw [hdw] at hbase
    simp only [bytesToNat, List.foldl_nil] at hbase
    simp [bytesToNat, ← hbase]
  · rw [if_neg hdw]
    by_cases hb : 128 ≤ ((beBytes 33 n).dropWhile (fun b => b == 0)).headD 0
    · rw [if_pos hb, bytesToNat_cons_zero, hbase]
    · rw [if_neg hb, hbase]

theorem derInt_ne_nil (n : Nat) : derInt n ≠ [] := by
  rw [derInt]
  by_cases hdw : (beBytes 33 n).dropWhile (fun b => b == 0) = []
  · rw [if_pos hdw]; simp
  · rw [if_neg hdw]
    by_cases hb : 128 ≤ ((beBytes 33 n).dropWhile (fun b => b == 0)).headD 0
    · rw [if_pos hb]; simp
    · rw [if_neg hb]; exact hdw

theorem derInt_length_pos (n : Nat) : 0 < (derInt n).length :=
  List.length_pos.mpr (derInt_ne_nil n)

theorem beBytes_succ_of_lt (l : Nat) : ∀ n, n < 256 ^ l → beBytes (l + 1) n = 0 :: beBytes l n := by
  induction l with
  | zero =>
    intro n hn
    interval_cases n
    rfl
  | succ l ih =>
    intro n hn
    have hdiv : n / 256 < 256 ^ l := by
      rw [Nat.div_lt_iff_lt_mul (by norm_num)]
      calc n < 256 ^ (l + 1) := hn
      _ = 256 ^ l * 256 := by ring
    rw [show beBytes (l + 1 + 1) n = beBytes (l + 1) (n / 256) ++ [n % 256] from rfl,
      ih (n / 256) hdiv]
    rfl

theorem derInt_length_le (n : Nat) (hn : n < 256 ^ 32) : (derInt n).length ≤ 33 := by
  have hsplit := beBytes_succ_of_lt 32 n hn
  have hdrop : (beBytes 33 n).dropWhile (fun b => b == 0) =
      (beBytes 32 n).dropWhile (fun b => b == 0) := by
    rw [hsplit, List.dropWhile_cons_of_pos (by simp)]
  have hlen : ((beBytes 33 n).dropWhile (fun b => b == 0)).length ≤ 32 := by
    rw [hdrop]
    calc ((beBytes 32 n).dropWhile (fun b => b == 0)).length
        ≤ (beBytes 32 n).length := (List.dropWhile_sublist _).length_le
    _ = 32 := beBytes_length 32 n
  rw [derInt]
  by_cases hdw : (beBytes 33 n).dropWhile (fun b => b == 0) = []
  · rw [if_pos hdw]; simp
  · rw [if_neg hdw]
    by_cases hb : 128 ≤ ((beBytes 33 n).dropWhile (fun b => b == 0)).headD 0
    · rw [if_pos hb]
      simp only [List.length_cons]
      omega
    · rw [if_neg hb]
      omega

theorem encodeDER_length_le (r s : Nat) (hr : r < 256 ^ 32) (hs : s < 256 ^ 32) :
    (encodeDER r s).length ≤ 72 := by
  have h1 := derInt_length_le r hr
  have h2 := derInt_length_le s hs
  rw [encodeDER]
  simp only [List.length_cons, List.length_append]
  omega

theorem parse_encodeDER (r s : Nat) (hr : r < 256 ^ 33) (hs : s < 256 ^ 33) :
    parseDER (encodeDER r s) = some (r, s) := by
  rw [encodeDER]
  simp only [parseDER]
  rw [List.drop_left' rfl, List.take_left' rfl]
  simp [derInt_length_pos r, derInt_length_pos s, derInt_value r hr, derInt_value s hs]

/-! ### The curve-engine operations (spec-modelled) -/

/-- Modelled from the spec: `secp256k1_ecdsa_seckey_verify` — "checks the
scalar is in the valid private-key range (nonzero, less than group
order)". -/
def seckeyVerify (d : Nat) : Bool := decide (0 < d) && decide (d < N0)

/-- Modelled from the spec: `secp256k1_ecdsa_pubkey_create` — "computes the
public point for a secret under the curve's base-point generator"; "Fails
... if the underlying derivation rejects the secret (e.g., secret out of
range)". -/
def pubkeyCreate (d : Nat) (compressed : Bool) : Option (List Nat) :=
  if 0 < d ∧ d < N0 then encodePoint compressed (smul d G) else none

/-- Modelled from the spec: `secp256k1_ecdsa_pubkey_verify` — "decodes and
checks the point lies on the curve and is correctly encoded". -/
def pubkeyVerify (bs : List Nat) : Bool := (decodePoint bs).isSome

/-- The scalar part of the ECDSA signing equation, given the x-coordinate
`xr` of `k·G`: fails on zero `r` or `s`, else yields
`(r, s) = (xr mod n, k⁻¹(e + r·d) mod n)`. -/
def signCore (d e k xr : Nat) : Option (Nat × Nat) :=
  if xr % N0 = 0 then none
  else if powMod k (N0 - 2) N0 * ((e + xr % N0 * d) % N0) % N0 = 0 then none
  else some (xr % N0, powMod k (N0 - 2) N0 * ((e + xr % N0 * d) % N0) % N0)

/-- Modelled from the spec: `secp256k1_ecdsa_sign` — ECDSA over secp256k1
with a caller-supplied nonce: `r = x(k·G) mod n` and `s = k⁻¹(e + r·d) mod
n`, failing on invalid scalars and on zero `r` or `s` ("underlying signing
rejection"). -/
def ecdsaSign (d e k : Nat) : Option (Nat × Nat) :=
  if 0 < d ∧ d < N0 then
    if 0 < k ∧ k < N0 then
      match smul k G with
      | .inf => none
      | .aff xr _ => signCore d e k xr
    else none
  else none

/-- Modelled from the spec: the core of `secp256k1_ecdsa_verify` on a parsed
signature — range checks on `(r, s)` and the test
`x(u₁·G + u₂·Q) mod n = r` with `u₁ = e·s⁻¹`, `u₂ = r·s⁻¹`. -/
def ecdsaVerifyRS (Qp : Pt) (e r s : Nat) : Bool :=
  decide (0 < r) && decide (r < N0) && decide (0 < s) && decide (s < N0) &&
    match pAdd (smul (e * powMod s (N0 - 2) N0 % N0) G)
        (smul (r * powMod s (N0 - 2) N0 % N0) Qp) with
    | .inf => false
    | .aff xR _ => decide (xR % N0 = r)

/-- Modelled from the spec: `secp256k1_ecdsa_verify` — parse the public key
and the DER signature, then check; "returns false on any malformed or
non-matching input". -/
def ecdsaVerify (pk : List Nat) (e : Nat) (sig : List Nat) : Bool :=
  match decodePoint pk, parseDER sig with
  | some Qp, some (r, s) => ecdsaVerifyRS Qp e r s
  | _, _ => false

/-- Modelled from the spec: `secp256k1_ecdsa_pubkey_tweak_add` — "adds
`scalar * basePoint` to the point in place, preserving the point's original
compression form and size. Fails if the point or secret is invalid" (or if
the result is the point at infinity, which is inexpressible). -/
def pubkeyTweakAdd (a : List Nat) (bn : Nat) : Bool × List Nat :=
  match decodePoint a with
  | none => (false, a)
  | some A =>
    if 0 < bn ∧ bn < N0 then
      match encodePoint (decide (a.length = 33)) (pAdd A (smul bn G)) with
      | none => (false, a)
      | some out => (true, out)
    else (false, a)

/-- Modelled from the spec: `secp256k1_ecdsa_pubkey_tweak_mul` — "scales the
point by the scalar in place. Fails under the same conditions." -/
def pubkeyTweakMul (a : List Nat) (bn : Nat) : Bool × List Nat :=
  match decodePoint a with
  | none => (false, a)
  | some A =>
    if 0 < bn ∧ bn < N0 then
      match encodePoint (decide (a.length = 33)) (smul bn A) with
      | none => (false, a)
      | some out => (true, out)
    else (false, a)

/-! ### The wrapper layer: translation of `ec_keys.cpp`

Each public function of the C++ file is translated together with its event
trace: `Event.initEv` for a call to `init.init()` (the `init_singleton`
guarding `secp256k1_start`), `Event.curveEv` for a call into either
curve-arithmetic engine (secp256k1 or OpenSSL EC). -/

/-- An observable event of a wrapper function. -/
inductive Event
  | initEv
  | curveEv
deriving DecidableEq

/-- Translation of `secret_to_public_key` (ec_keys.cpp:60–75): `init.init()`;
select 33/65-byte size; `secp256k1_ecdsa_pubkey_create`; empty point on
failure. -/
def secret_to_public_keyT (secret : List Nat) (compressed : Bool) :
    List Event × List Nat :=
  ([.initEv, .curveEv],
    match pubkeyCreate (bytesToNat secret) compressed with
    | none => []
    | some out => out)

def secret_to_public_key (secret : List Nat) (compressed : Bool) : List Nat :=
  (secret_to_public_keyT secret compressed).2

/-- Translation of `verify_public_key` (ec_keys.cpp:77–81). -/
def verify_public_keyT (public_key : List Nat) : List Event × Bool :=
  ([.initEv, .curveEv], pubkeyVerify public_key)

def verify_public_key (public_key : List Nat) : Bool :=
  (verify_public_keyT public_key).2

/-- Translation of `verify_private_key` (ec_keys.cpp:83–87). -/
def verify_private_keyT (private_key : List Nat) : List Event × Bool :=
  ([.initEv, .curveEv], seckeyVerify (bytesToNat private_key))

def verify_private_key (private_key : List Nat) : Bool :=
  (verify_private_keyT private_key).2

/-- Translation of `sign` (ec_keys.cpp:89–104): `init.init()`; a 72-byte
scratch signature buffer; the internal `verify_private_key(nonce)` guard
("Needed because of upstream bug"); `secp256k1_ecdsa_sign`; empty chunk on
failure, else the buffer resized to the engine-reported length. -/
def signT (secret hash nonce : List Nat) : List Event × List Nat :=
  if (verify_private_keyT nonce).2 = false then
    (Event.initEv :: (verify_private_keyT nonce).1, [])
  else
    (Event.initEv :: ((verify_private_keyT nonce).1 ++ [Event.curveEv]),
      match ecdsaSign (bytesToNat secret) (bytesToNat hash) (bytesToNat nonce) with
      | none => []
      | some (r, s) =>
        (encodeDER r s ++ List.replicate (72 - (encodeDER r s).length) 0).take
          (encodeDER r s).length)

def sign (secret hash nonce : List Nat) : List Nat := (signT secret hash nonce).2

/-- Translation of `verify_signature` (ec_keys.cpp:106–115): `init.init()`;
`1 == secp256k1_ecdsa_verify(...)`. -/
def verify_signatureT (public_key hash signature : List Nat) : List Event × Bool :=
  ([.initEv, .curveEv], ecdsaVerify public_key (bytesToNat hash) signature)

def verify_signature (public_key hash signature : List Nat) : Bool :=
  (verify_signatureT public_key hash signature).2

/-- Translation of `operator+=(ec_point&, const ec_point&)`
(ec_keys.cpp:117–145): the OpenSSL general point-addition path — build
group/points, `EC_POINT_oct2point` both operands, `EC_POINT_add`, re-encode
compressed into the left operand after a resize.  The `goto fail` paths
before line 134 leave the left operand untouched; when the sum is the point
at infinity the encoding step fails after the left operand was resized to
the engine-reported size (0).  Note: this function never calls
`init.init()`. -/
def point_add_pointT (a b : List Nat) : List Event × (Bool × List Nat) :=
  match decodePoint a with
  | none => ([.curveEv], (false, a))
  | some A =>
    match decodePoint b with
    | none => ([.curveEv, .curveEv], (false, a))
    | some B =>
      match encodePoint true (pAdd A B) with
      | none => ([.curveEv, .curveEv, .curveEv], (false, []))
      | some out => ([.curveEv, .curveEv, .curveEv], (true, out))

def point_add_point (a b : List Nat) : Bool × List Nat := (point_add_pointT a b).2

/-- Translation of `operator+=(ec_point&, const ec_secret&)`
(ec_keys.cpp:147–151): `init.init()`; `secp256k1_ecdsa_pubkey_tweak_add`. -/
def point_add_secretT (a b : List Nat) : List Event × (Bool × List Nat) :=
  ([.initEv, .curveEv], pubkeyTweakAdd a (bytesToNat b))

def point_add_secret (a b : List Nat) : Bool × List Nat := (point_add_secretT a b).2

/-- Translation of `operator*=(ec_point&, const ec_secret&)`
(ec_keys.cpp:153–157): `init.init()`; `secp256k1_ecdsa_pubkey_tweak_mul`. -/
def point_mul_secretT (a b : List Nat) : List Event × (Bool × List Nat) :=
  ([.initEv, .curveEv], pubkeyTweakMul a (bytesToNat b))

def point_mul_secret (a b : List Nat) : Bool × List Nat := (point_mul_secretT a b).2

/-- Translation of `operator+=(ec_secret&, const ec_secret&)`
(ec_keys.cpp:159–163): `init.init()`; `secp256k1_ecdsa_privkey_tweak_add`
(modelled from the spec: "adds two scalars modulo the group order in place;
fails if the result or an operand is invalid"). -/
def secret_add_secretT (a b : List Nat) : List Event × (Bool × List Nat) :=
  ([.initEv, .curveEv],
    if 0 < bytesToNat a ∧ bytesToNat a < N0 ∧ 0 < bytesToNat b ∧ bytesToNat b < N0 ∧
        (bytesToNat a + bytesToNat b) % N0 ≠ 0 then
      (true, beBytes 32 ((bytesToNat a + bytesToNat b) % N0))
    else (false, a))

def secret_add_secret (a b : List Nat) : Bool × List Nat := (secret_add_secretT a b).2

/-- Translation of `operator*=(ec_secret&, const ec_secret&)`
(ec_keys.cpp:165–169): `init.init()`; `secp256k1_ecdsa_privkey_tweak_mul`
(modelled from the spec: "multiplies two scalars modulo the group order in
place; same failure conditions"). -/
def secret_mul_secretT (a b : List Nat) : List Event × (Bool × List Nat) :=
  ([.initEv, .curveEv],
    if 0 < bytesToNat a ∧ bytesToNat a < N0 ∧ 0 < bytesToNat b ∧ bytesToNat b < N0 ∧
        bytesToNat a * bytesToNat b % N0 ≠ 0 then
      (true, beBytes 32 (bytesToNat a * bytesToNat b % N0))
    else (false, a))

def secret_mul_secret (a b : List Nat) : Bool × List Nat := (secret_mul_secretT a b).2

/-- The temporal property of claim C9: every curve-engine call is preceded
by an initialization call — on our straight-line traces, a trace is
compliant when it is empty or starts with `initEv`. -/
def initBeforeCurve : List Event → Bool
  | [] => true
  | .initEv :: _ => true
  | .curveEv :: _ => false

/-! ### Support lemmas for the claims -/

theorem PtRel_left_unique {A A' : Pt} {Q : secp.Point} (h : PtRel A Q)
    (h' : PtRel A' Q) : A = A' := by
  cases A with
  | inf =>
    cases A' with
    | inf => rfl
    | aff x y =>
      rw [PtRel] at h
      obtain ⟨_, _, hc⟩ := h'
      rw [h] at hc
      cases hc
  | aff x y =>
    cases A' with
    | inf =>
      rw [PtRel] at h'
      obtain ⟨_, _, hc⟩ := h
      rw [h'] at hc
      cases hc
    | aff x' y' =>
      obtain ⟨hx, hy, hc⟩ := h
      obtain ⟨hx', hy', hc'⟩ := h'
      rw [hc] at hc'
      simp only [Option.some.injEq, Prod.mk.injEq] at hc'
      obtain ⟨h1, h2⟩ := hc'
      rw [(cast_inj_lt hx hx').mp h1, (cast_inj_lt hy hy').mp h2]

theorem nsmul_GQ_mod (m : Nat) : m • GQ = (m % N0) • GQ := by
  conv_lhs => rw [← Nat.div_add_mod m N0]
  rw [add_nsmul, mul_nsmul, N0_nsmul_GQ, nsmul_zero, zero_add]

theorem nsmul_GQ_congr {m n : Nat} (h : m % N0 = n % N0) : m • GQ = n • GQ := by
  rw [nsmul_GQ_mod m, nsmul_GQ_mod n, h]

theorem cast_eq_zero_iff_modN (a : Nat) : ((a : ZMod N0) = 0) ↔ a % N0 = 0 := by
  rw [show ((0 : ZMod N0) = ((0 : Nat) : ZMod N0)) from rfl, ZMod.natCast_eq_natCast_iff']
  simp

theorem castN_inj_lt {a b : Nat} (ha : a < N0) (hb : b < N0) :
    ((a : ZMod N0) = (b : ZMod N0)) ↔ a = b := by
  constructor
  · intro h
    have := congrArg ZMod.val h
    rwa [ZMod.val_natCast_of_lt ha, ZMod.val_natCast_of_lt hb] at this
  · intro h; rw [h]

theorem powModN_cast (z : Nat) :
    ((powMod z (N0 - 2) N0 : Nat) : ZMod N0) = (z : ZMod N0)⁻¹ := by
  rw [powMod_eq z (N0 - 2) N0 N0_pos (by norm_num [N0]), ZMod.natCast_mod, Nat.cast_pow]
  by_cases hz : (z : ZMod N0) = 0
  · rw [hz, inv_zero]
    exact zero_pow (by norm_num [N0])
  · have h1 : (z : ZMod N0) * (z : ZMod N0) ^ (N0 - 2) = 1 := by
      rw [mul_comm, ← pow_succ, show N0 - 2 + 1 = N0 - 1 by norm_num [N0]]
      exact ZMod.pow_card_sub_one_eq_one hz
    exact (inv_eq_of_mul_eq_one_right h1).symm

theorem N0_lt_bytes32 : N0 < 256 ^ 32 := by norm_num [N0]

theorem N0_lt_pow : N0 < 2 ^ 320 := by norm_num [N0]

/-- A valid scalar multiple of the base point is an affine pair related to
the corresponding Mathlib point. -/
theorem smul_G_shape {d : Nat} (hd0 : 0 < d) (hdN : d < N0) :
    ∃ x y, smul d G = Pt.aff x y ∧ PtRel (Pt.aff x y) (d • GQ) ∧
      x < P0 ∧ y < P0 ∧ y ≠ 0 := by
  have hrel := PtRel_smul d (lt_trans hdN N0_lt_pow) PtRel_G
  cases hAG : smul d G with
  | inf =>
    rw [hAG] at hrel
    exact absurd (coords_eq_none_iff.mp hrel) (nsmul_GQ_ne_zero hd0 hdN)
  | aff x y =>
    rw [hAG] at hrel
    exact ⟨x, y, rfl, hrel, hrel.1, hrel.2.1, rel_y_ne_zero hd0 hdN hrel⟩

theorem selectY_lt (c y0 : Nat) (h : y0 < P0) : selectY c y0 < P0 := by
  rw [selectY]
  by_cases hp : y0 % 2 = (if c = 2 then 0 else 1)
  · rw [if_pos hp]; exact h
  · rw [if_neg hp]; exact Nat.mod_lt _ P0_pos

/-- Inversion of `decodePoint`: a decoded point is an affine pair with
reduced coordinates on the curve. -/
theorem decodePoint_some {bs : List Nat} {A : Pt} (h : decodePoint bs = some A) :
    ∃ x y, A = Pt.aff x y ∧ x < P0 ∧ y < P0 ∧ y * y % P0 = rhs x := by
  match bs with
  | [] => cases h
  | c :: rest =>
    rw [decodePoint] at h
    by_cases hc : c = 2 ∨ c = 3
    · rw [if_pos hc] at h
      by_cases hlen : rest.length = 32
      · rw [if_pos hlen] at h
        by_cases hx : bytesToNat rest < P0
        · rw [if_pos hx, checkY] at h
          by_cases hcv : selectY c (psqrt (rhs (bytesToNat rest))) *
              selectY c (psqrt (rhs (bytesToNat rest))) % P0 = rhs (bytesToNat rest)
          · rw [if_pos hcv] at h
            injection h with h
            exact ⟨_, _, h.symm, hx, selectY_lt _ _ (psqrt_lt _), hcv⟩
          · rw [if_neg hcv] at h; cases h
        · rw [if_neg hx] at h; cases h
      · rw [if_neg hlen] at h; cases h
    · rw [if_neg hc] at h
      by_cases hc4 : c = 4
      · rw [if_pos hc4] at h
        by_cases hlen : rest.length = 64
        · rw [if_pos hlen] at h
          by_cases hb : bytesToNat (rest.take 32) < P0 ∧ bytesToNat (rest.drop 32) < P0
          · rw [if_pos hb, checkY] at h
            by_cases hcv : bytesToNat (rest.drop 32) * bytesToNat (rest.drop 32) % P0 =
                rhs (bytesToNat (rest.take 32))
            · rw [if_pos hcv] at h
              injection h with h
              exact ⟨_, _, h.symm, hb.1, hb.2, hcv⟩
            · rw [if_neg hcv] at h; cases h
          · rw [if_neg hb] at h; cases h
        · rw [if_neg hlen] at h; cases h
      · rw [if_neg hc4] at h; cases h

/-- A decoded point is related to some Mathlib point. -/
theorem decodePoint_rel {bs : List Nat} {A : Pt} (h : decodePoint bs = some A) :
    ∃ Q, PtRel A Q := by
  obtain ⟨x, y, rfl, hx, hy, hc⟩ := decodePoint_some h
  exact ⟨mkPoint hc, PtRel_mkPoint hx hy hc⟩

theorem pAdd_comm_of_rel {A B : Pt} {Q R : secp.Point} (hA : PtRel A Q)
    (hB : PtRel B R) : pAdd A B = pAdd B A :=
  PtRel_left_unique (PtRel_pAdd hA hB) (by rw [add_comm]; exact PtRel_pAdd hB hA)

/-- Derivation produces an encodable affine pair whose encoding decodes
back to it, with the encoded length fixed by the compression flag. -/
theorem pubkeyCreate_decode {d : Nat} (hd0 : 0 < d) (hdN : d < N0) (c : Bool) :
    ∃ x y bs, smul d G = Pt.aff x y ∧ PtRel (Pt.aff x y) (d • GQ) ∧
      pubkeyCreate d c = some bs ∧ decodePoint bs = some (Pt.aff x y) ∧
      bs.length = (if c then 33 else 65) := by
  obtain ⟨x, y, hG, hrel, hx, hy, hy0⟩ := smul_G_shape hd0 hdN
  have hcurve := rel_curveNat hrel
  cases c with
  | true =>
    refine ⟨x, y, (if y % 2 = 0 then 2 else 3) :: beBytes 32 x, hG, hrel, ?_, ?_, ?_⟩
    · rw [pubkeyCreate, if_pos ⟨hd0, hdN⟩, hG]
      rw [encodePoint, if_pos rfl]
    · exact decode_encode_compressed hx hy hy0 hcurve
    · by_cases hp : y % 2 = 0
      · rw [if_pos hp]
        simp [beBytes_length]
      · rw [if_neg hp]
        simp [beBytes_length]
  | false =>
    refine ⟨x, y, 4 :: (beBytes 32 x ++ beBytes 32 y), hG, hrel, ?_, ?_, ?_⟩
    · rw [pubkeyCreate, if_pos ⟨hd0, hdN⟩, hG]
      rw [encodePoint]
      simp
    · exact decode_encode_uncompressed hx hy hcurve
    · simp [beBytes_length]

/-- Inversion of `ecdsaSign`. -/
theorem ecdsaSign_some {d e k r s : Nat} (h : ecdsaSign d e k = some (r, s)) :
    0 < d ∧ d < N0 ∧ 0 < k ∧ k < N0 ∧
      ∃ xr yr, smul k G = Pt.aff xr yr ∧ r = xr % N0 ∧ r ≠ 0 ∧
        s = powMod k (N0 - 2) N0 * ((e + r * d) % N0) % N0 ∧ s ≠ 0 := by
  rw [ecdsaSign] at h
  by_cases hd : 0 < d ∧ d < N0
  · rw [if_pos hd] at h
    by_cases hk : 0 < k ∧ k < N0
    · rw [if_pos hk] at h
      cases hkG : smul k G with
      | inf => rw [hkG] at h; cases h
      | aff xr yr =>
        rw [hkG] at h
        replace h : signCore d e k xr = some (r, s) := h
        rw [signCore] at h
        by_cases hr : xr % N0 = 0
        · rw [if_pos hr] at h; cases h
        · rw [if_neg hr] at h
          by_cases hs : powMod k (N0 - 2) N0 * ((e + xr % N0 * d) % N0) % N0 = 0
          · rw [if_pos hs] at h; cases h
          · rw [if_neg hs] at h
            injection h with h
            injection h with h1 h2
            refine ⟨hd.1, hd.2, hk.1, hk.2, xr, yr, rfl, h1.symm, ?_, ?_, ?_⟩
            · rw [← h1]
              exact hr
            · rw [← h1]
              exact h2.symm
            · rw [← h2]
              exact hs
    · rw [if_neg hk] at h; cases h
  · rw [if_neg hd] at h; cases h

/-- The central ECDSA algebra: a signature produced by `ecdsaSign` passes
the verification equation against the signer's public point. -/
theorem ecdsaVerifyRS_of_sign {d e k r s xr yr xd yd : Nat}
    (hd0 : 0 < d) (hdN : d < N0) (hk0 : 0 < k) (hkN : k < N0)
    (hkG : smul k G = Pt.aff xr yr)
    (hdG : smul d G = Pt.aff xd yd)
    (hrdef : r = xr % N0) (hr0 : r ≠ 0)
    (hsdef : s = powMod k (N0 - 2) N0 * ((e + r * d) % N0) % N0) (hs0 : s ≠ 0) :
    ecdsaVerifyRS (Pt.aff xd yd) e r s = true := by
  have hrN : r < N0 := by rw [hrdef]; exact Nat.mod_lt _ N0_pos
  have hsN : s < N0 := by rw [hsdef]; exact Nat.mod_lt _ N0_pos
  have hrelk : PtRel (Pt.aff xr yr) (k • GQ) := by
    have h := PtRel_smul k (lt_trans hkN N0_lt_pow) PtRel_G
    rwa [hkG] at h
  have hreld : PtRel (Pt.aff xd yd) (d • GQ) := by
    have h := PtRel_smul d (lt_trans hdN N0_lt_pow) PtRel_G
    rwa [hdG] at h
  have hrel1 : PtRel (smul (e * powMod s (N0 - 2) N0 % N0) G)
      ((e * powMod s (N0 - 2) N0 % N0) • GQ) :=
    PtRel_smul _ (lt_trans (Nat.mod_lt _ N0_pos) N0_lt_pow) PtRel_G
  have hrel2 : PtRel (smul (r * powMod s (N0 - 2) N0 % N0) (Pt.aff xd yd))
      ((r * powMod s (N0 - 2) N0 % N0) • (d • GQ)) :=
    PtRel_smul _ (lt_trans (Nat.mod_lt _ N0_pos) N0_lt_pow) hreld
  have hadd := PtRel_pAdd hrel1 hrel2
  have hkz : (k : ZMod N0) ≠ 0 := by
    intro hc
    rw [cast_eq_zero_iff_modN, Nat.mod_eq_of_lt hkN] at hc
    omega
  have hsz : (s : ZMod N0) ≠ 0 := by
    intro hc
    rw [cast_eq_zero_iff_modN, Nat.mod_eq_of_lt hsN] at hc
    exact hs0 hc
  have hks : (k : ZMod N0) * s = e + r * d := by
    have hcs : (s : ZMod N0) = (k : ZMod N0)⁻¹ * (e + r * d) := by
      rw [hsdef, ZMod.natCast_mod, Nat.cast_mul, powModN_cast, ZMod.natCast_mod]
      push_cast
      ring
    rw [hcs, ← mul_assoc, mul_inv_cancel₀ hkz, one_mul]
  have halg : (e * powMod s (N0 - 2) N0 % N0) • GQ +
      (r * powMod s (N0 - 2) N0 % N0) • (d • GQ) = k • GQ := by
    rw [show (r * powMod s (N0 - 2) N0 % N0) • (d • GQ) =
        (d * (r * powMod s (N0 - 2) N0 % N0)) • GQ from
      (mul_nsmul GQ d (r * powMod s (N0 - 2) N0 % N0)).symm, ← add_nsmul]
    apply nsmul_GQ_congr
    refine (ZMod.natCast_eq_natCast_iff' _ _ _).mp ?_
    rw [Nat.cast_add, Nat.cast_mul, ZMod.natCast_mod, ZMod.natCast_mod,
      Nat.cast_mul, Nat.cast_mul, powModN_cast]
    have hfold : (e : ZMod N0) * (s : ZMod N0)⁻¹ + d * (r * (s : ZMod N0)⁻¹) =
        ((e : ZMod N0) + r * d) * (s : ZMod N0)⁻¹ := by ring
    rw [hfold, ← hks, mul_assoc, mul_inv_cancel₀ hsz, mul_one]
  rw [halg] at hadd
  have heq : pAdd (smul (e * powMod s (N0 - 2) N0 % N0) G)
      (smul (r * powMod s (N0 - 2) N0 % N0) (Pt.aff xd yd)) = Pt.aff xr yr :=
    PtRel_left_unique hadd hrelk
  rw [ecdsaVerifyRS, heq]
  simp only [Bool.and_eq_true, decide_eq_true_eq]
  exact ⟨⟨⟨⟨Nat.pos_of_ne_zero hr0, hrN⟩, Nat.pos_of_ne_zero hs0⟩, hsN⟩, hrdef.symm⟩

/-- A nonempty `sign` result comes from a successful engine signature and
is exactly its DER encoding. -/
theorem sign_eq_of_ne_nil {secret hash nonce : List Nat}
    (h : sign secret hash nonce ≠ []) :
    seckeyVerify (bytesToNat nonce) = true ∧
    ∃ r s, ecdsaSign (bytesToNat secret) (bytesToNat hash) (bytesToNat nonce) = some (r, s) ∧
      sign secret hash nonce = encodeDER r s := by
  rw [sign, signT] at h
  by_cases hvk : (verify_private_keyT nonce).2 = false
  · rw [if_pos hvk] at h
    exact absurd rfl h
  · rw [sign, signT, if_neg hvk]
    refine ⟨by simpa using hvk, ?_⟩
    cases hE : ecdsaSign (bytesToNat secret) (bytesToNat hash) (bytesToNat nonce) with
    | none =>
      rw [if_neg hvk, hE] at h
      exact absurd rfl h
    | some rs =>
      obtain ⟨r, s⟩ := rs
      exact ⟨r, s, rfl, by
        show (encodeDER r s ++ List.replicate (72 - (encodeDER r s).length) 0).take
          (encodeDER r s).length = encodeDER r s
        exact List.take_left' rfl⟩

theorem ecdsaVerify_eq_RS {pk sig : List Nat} {Qp : Pt} {r s e : Nat}
    (hdec : decodePoint pk = some Qp) (hparse : parseDER sig = some (r, s)) :
    ecdsaVerify pk e sig = ecdsaVerifyRS Qp e r s := by
  rw [ecdsaVerify, hdec, hparse]

/-- The coordinates of the negation of a point: same x, negated y. -/
theorem coords_neg {Q : secp.Point} {a b : ZMod P0} (h : coords Q = some (a, b)) :
    coords (-Q) = some (a, -b) := by
  obtain ⟨hN, rfl⟩ := coords_eq_some h
  rw [WeierstrassCurve.Affine.Point.neg_some]
  rw [coords, secp_negY]

/-- Negation of a base-point multiple inside the group:
`(N0 - k) • GQ = -(k • GQ)` for `k ≤ N0`. -/
theorem nsmul_GQ_sub {k : Nat} (hk : k ≤ N0) : (N0 - k) • GQ = -(k • GQ) := by
  apply eq_neg_of_add_eq_zero_right
  rw [← add_nsmul, Nat.add_sub_cancel' hk, N0_nsmul_GQ]

/-- The x-coordinate survives scalar negation: from `smul k G = (xr, yr)` the
multiple by `N0 - k` is affine with the same x-coordinate. -/
theorem smul_neg_x {k xr yr : Nat} (hk0 : 0 < k) (hkN : k < N0)
    (hkG : smul k G = Pt.aff xr yr) :
    ∃ ym, smul (N0 - k) G = Pt.aff xr ym ∧
      PtRel (Pt.aff xr ym) ((N0 - k) • GQ) := by
  have hk'0 : 0 < N0 - k := Nat.sub_pos_of_lt hkN
  have hk'N : N0 - k < N0 := by omega
  obtain ⟨x', y', hG', hrel', hx', hy', hy'0⟩ := smul_G_shape hk'0 hk'N
  have hrelk : PtRel (Pt.aff xr yr) (k • GQ) := by
    have h := PtRel_smul k (lt_trans hkN N0_lt_pow) PtRel_G
    rwa [hkG] at h
  obtain ⟨hxrlt, hyrlt, hck⟩ := hrelk
  have hcneg : coords (-(k • GQ)) = some ((xr : ZMod P0), -(yr : ZMod P0)) :=
    coords_neg hck
  rw [← nsmul_GQ_sub (le_of_lt hkN)] at hcneg
  obtain ⟨hx'lt, hy'lt, hc'⟩ := id hrel'
  rw [hc'] at hcneg
  simp only [Option.some.injEq, Prod.mk.injEq] at hcneg
  have hxx : x' = xr := (cast_inj_lt hx'lt hxrlt).mp hcneg.1
  subst hxx
  exact ⟨y', hG', hrel'⟩

/-- Generalised ECDSA verification: if `e + r·d ≡ m·s (mod n)` and the
`m`-multiple of the base point is an affine point whose x-coordinate reduces
to `r`, verification of `(r, s)` against the public point of `d` succeeds.
This covers the honest round-trip (`m` the nonce), the malleable signature
`(r, n - s)` and the second verifying hash (`m` the negated nonce). -/
theorem ecdsaVerifyRS_eq_x {d e r s m xd yd xm ym : Nat}
    (hdN : d < N0) (hr0 : 0 < r) (hrN : r < N0) (hs0 : 0 < s) (hsN : s < N0)
    (hdG : smul d G = Pt.aff xd yd)
    (hm : (e + r * d) % N0 = m * s % N0)
    (hmG : smul (m % N0) G = Pt.aff xm ym)
    (hxr : xm % N0 = r) :
    ecdsaVerifyRS (Pt.aff xd yd) e r s = true := by
  have hreld : PtRel (Pt.aff xd yd) (d • GQ) := by
    have h := PtRel_smul d (lt_trans hdN N0_lt_pow) PtRel_G
    rwa [hdG] at h
  have hrelm : PtRel (Pt.aff xm ym) ((m % N0) • GQ) := by
    have h := PtRel_smul (m % N0) (lt_trans (Nat.mod_lt _ N0_pos) N0_lt_pow) PtRel_G
    rwa [hmG] at h
  have hrel1 : PtRel (smul (e * powMod s (N0 - 2) N0 % N0) G)
      ((e * powMod s (N0 - 2) N0 % N0) • GQ) :=
    PtRel_smul _ (lt_trans (Nat.mod_lt _ N0_pos) N0_lt_pow) PtRel_G
  have hrel2 : PtRel (smul (r * powMod s (N0 - 2) N0 % N0) (Pt.aff xd yd))
      ((r * powMod s (N0 - 2) N0 % N0) • (d • GQ)) :=
    PtRel_smul _ (lt_trans (Nat.mod_lt _ N0_pos) N0_lt_pow) hreld
  have hadd := PtRel_pAdd hrel1 hrel2
  have hsz : (s : ZMod N0) ≠ 0 := by
    intro hc
    rw [cast_eq_zero_iff_modN, Nat.mod_eq_of_lt hsN] at hc
    omega
  have hmz : (e : ZMod N0) + r * d = (m : ZMod N0) * s := by
    have h2 := (ZMod.natCast_eq_natCast_iff' (e + r * d) (m * s) N0).mpr hm
    push_cast at h2
    exact h2
  have halg : (e * powMod s (N0 - 2) N0 % N0) • GQ +
      (r * powMod s (N0 - 2) N0 % N0) • (d • GQ) = (m % N0) • GQ := by
    rw [show (r * powMod s (N0 - 2) N0 % N0) • (d • GQ) =
        (d * (r * powMod s (N0 - 2) N0 % N0)) • GQ from
      (mul_nsmul GQ d (r * powMod s (N0 - 2) N0 % N0)).symm, ← add_nsmul]
    apply nsmul_GQ_congr
    refine (ZMod.natCast_eq_natCast_iff' _ _ _).mp ?_
    conv_rhs => rw [ZMod.natCast_mod]
    rw [Nat.cast_add, Nat.cast_mul, ZMod.natCast_mod, ZMod.natCast_mod,
      Nat.cast_mul, Nat.cast_mul, powModN_cast]
    have hfold : (e : ZMod N0) * (s : ZMod N0)⁻¹ + d * (r * (s : ZMod N0)⁻¹) =
        ((e : ZMod N0) + r * d) * (s : ZMod N0)⁻¹ := by ring
    rw [hfold, hmz, mul_assoc, mul_inv_cancel₀ hsz, mul_one]
  rw [halg] at hadd
  have heq : pAdd (smul (e * powMod s (N0 - 2) N0 % N0) G)
      (smul (r * powMod s (N0 - 2) N0 % N0) (Pt.aff xd yd)) = Pt.aff xm ym :=
    PtRel_left_unique hadd hrelm
  rw [ecdsaVerifyRS, heq]
  simp only [Bool.and_eq_true, decide_eq_true_eq]
  exact ⟨⟨⟨⟨hr0, hrN⟩, hs0⟩, hsN⟩, hxr⟩

/-- A nonempty `sign` result verifies against the signer's public key under
either compression flag: the round-trip core of the sign/verify claims. -/
theorem sign_verify_roundtrip {secret hash nonce : List Nat} (c : Bool)
    (hne : sign secret hash nonce ≠ []) :
    verify_signature (secret_to_public_key secret c) hash
      (sign secret hash nonce) = true := by
  obtain ⟨hvk, r, s, hE, henc⟩ := sign_eq_of_ne_nil hne
  obtain ⟨hd0, hdN, hk0, hkN, xr, yr, hkG, hrdef, hr0, hsdef, hs0⟩ := ecdsaSign_some hE
  obtain ⟨xd, yd, bs, hdG, hreld, hP, hdec, hlen⟩ := pubkeyCreate_decode hd0 hdN c
  have hpk : secret_to_public_key secret c = bs := by
    rw [secret_to_public_key, secret_to_public_keyT]
    dsimp only
    rw [hP]
  have hrB : r < 256 ^ 33 := by
    rw [hrdef]
    exact lt_trans (lt_trans (Nat.mod_lt _ N0_pos) N0_lt_bytes32) (by norm_num)
  have hsB : s < 256 ^ 33 := by
    rw [hsdef]
    exact lt_trans (lt_trans (Nat.mod_lt _ N0_pos) N0_lt_bytes32) (by norm_num)
  rw [verify_signature, verify_signatureT]
  dsimp only
  rw [henc, hpk, ecdsaVerify_eq_RS hdec (parse_encodeDER r s hrB hsB)]
  exact ecdsaVerifyRS_of_sign hd0 hdN hk0 hkN hkG hdG hrdef hr0 hsdef hs0

/-! ### The claims -/

/-- C7: `verify_private_key` (secret validation) returns false for the
all-zero 32-byte secret and for any secret greater than or equal to the
curve group order (including the group order itself), and returns true for
the secret encoding the integer 1. -/
theorem C7_verify_private_key_range :
    verify_private_key (List.replicate 32 0) = false ∧
    (∀ sk : List Nat, N0 ≤ bytesToNat sk → verify_private_key sk = false) ∧
    verify_private_key (beBytes 32 N0) = false ∧
    verify_private_key (beBytes 32 1) = true := by
  refine ⟨by decide, ?_, by decide, by decide⟩
  intro sk h
  show seckeyVerify (bytesToNat sk) = false
  rw [seckeyVerify]
  simp [Nat.not_lt.mpr h]

/-- C7 witness: the range clause applied at the 32-byte encoding of the
group order itself. -/
theorem C7_witness :
    N0 ≤ bytesToNat (beBytes 32 N0) ∧ verify_private_key (beBytes 32 N0) = false :=
  ⟨by decide, C7_verify_private_key_range.2.1 (beBytes 32 N0) (by decide)⟩

/-- C3: `sign` fails (returns an empty signature) whenever the nonce is not
a valid private-key scalar — in particular when the nonce is zero — and on
any internal failure the returned signature is empty, never a partially
written buffer; on success the returned signature is exactly the
engine-reported encoded length (within the 72-byte bound). -/
theorem C3_sign_failure_modes (secret hash nonce : List Nat) :
    (seckeyVerify (bytesToNat nonce) = false → sign secret hash nonce = []) ∧
    (bytesToNat nonce = 0 → sign secret hash nonce = []) ∧
    (sign secret hash nonce = [] ∨
      ∃ r s, ecdsaSign (bytesToNat secret) (bytesToNat hash) (bytesToNat nonce) = some (r, s) ∧
        sign secret hash nonce = encodeDER r s ∧ (sign secret hash nonce).length ≤ 72) := by
  have hfail : seckeyVerify (bytesToNat nonce) = false → sign secret hash nonce = [] := by
    intro h
    rw [sign, signT, if_pos (show (verify_private_keyT nonce).2 = false from h)]
  refine ⟨hfail, ?_, ?_⟩
  · intro h0
    apply hfail
    rw [seckeyVerify, h0]
    rfl
  · by_cases hnil : sign secret hash nonce = []
    · exact Or.inl hnil
    · right
      obtain ⟨hvk, r, s, hE, henc⟩ := sign_eq_of_ne_nil hnil
      obtain ⟨_, _, _, _, xr, yr, _, hrdef, _, hsdef, _⟩ := ecdsaSign_some hE
      refine ⟨r, s, hE, henc, ?_⟩
      rw [henc]
      apply encodeDER_length_le
      · rw [hrdef]
        exact lt_trans (Nat.mod_lt _ N0_pos) N0_lt_bytes32
      · rw [hsdef]
        exact lt_trans (Nat.mod_lt _ N0_pos) N0_lt_bytes32

/-- C3 witness: an all-zero nonce (and hence an invalid scalar) gives the
empty signature. -/
theorem C3_witness :
    seckeyVerify (bytesToNat (List.replicate 32 0)) = false ∧
    bytesToNat (List.replicate 32 0) = 0 ∧
    sign (beBytes 32 1) (beBytes 32 1) (List.replicate 32 0) = [] :=
  ⟨by decide, by decide,
    (C3_sign_failure_modes (beBytes 32 1) (beBytes 32 1) (List.replicate 32 0)).2.1 (by decide)⟩

/-- C4 (amended): `verify_signature` returns a boolean for every input and
never raises; it returns false whenever the signature fails to parse as a
DER signature or the public key fails to decode.  The original universal
clauses — false after any single byte flip of a valid signature and false
for any hash other than the signed one — do not hold (see the
counterexample: ECDSA signature malleability `(r, n−s)` reachable by a
one-byte change, and the second verifying hash `−e − 2rd mod n`). -/
theorem C4_verify_malformed_false (public_key hash signature : List Nat) :
    (verify_signature public_key hash signature = true ∨
      verify_signature public_key hash signature = false) ∧
    (parseDER signature = none → verify_signature public_key hash signature = false) ∧
    (decodePoint public_key = none → verify_signature public_key hash signature = false) := by
  refine ⟨?_, ?_, ?_⟩
  · cases verify_signature public_key hash signature
    · exact Or.inr rfl
    · exact Or.inl rfl
  · intro hp
    show ecdsaVerify public_key (bytesToNat hash) signature = false
    rw [ecdsaVerify, hp]
    cases hd : decodePoint public_key <;> rfl
  · intro hd
    show ecdsaVerify public_key (bytesToNat hash) signature = false
    rw [ecdsaVerify, hd]

/-- C4 witness: the empty signature fails to parse and is rejected. -/
theorem C4_witness :
    parseDER ([] : List Nat) = none ∧
    verify_signature (secret_to_public_key (beBytes 32 1) true) (beBytes 32 1) [] = false :=
  ⟨by decide,
    (C4_verify_malformed_false (secret_to_public_key (beBytes 32 1) true)
      (beBytes 32 1) []).2.1 (by decide)⟩

/-- C10: in the point+point addition operator, when either operand fails to
decode as a curve point the operation returns false with the left operand's
byte contents and size completely unchanged — the failure occurs before any
resize or write to the left operand. -/
theorem C10_decode_failure_leaves_left_operand (a b : List Nat) :
    (decodePoint a = none → point_add_point a b = (false, a)) ∧
    (∀ A, decodePoint a = some A → decodePoint b = none →
      point_add_point a b = (false, a)) := by
  constructor
  · intro ha
    rw [point_add_point, point_add_pointT, ha]
  · intro A ha hb
    rw [point_add_point, point_add_pointT, ha, hb]

/-- C10 witness: two all-zero 33-byte buffers fail to decode and leave the
left operand intact. -/
theorem C10_witness :
    decodePoint (List.replicate 33 0) = none ∧
    point_add_point (List.replicate 33 0) (List.replicate 33 0) =
      (false, List.replicate 33 0) :=
  ⟨by decide,
    (C10_decode_failure_leaves_left_operand (List.replicate 33 0)
      (List.replicate 33 0)).1 (by decide)⟩

/-- C5: point+point addition returns false if either operand fails to decode
as a valid curve point, returns false if the addition result is the point at
infinity (inexpressible), and on success stores the sum re-encoded in
compressed form into the left operand, resizing its storage to 33 bytes. -/
theorem C5_point_add_point_contract (a b : List Nat) :
    (decodePoint a = none → point_add_point a b = (false, a)) ∧
    (∀ A, decodePoint a = some A → decodePoint b = none →
      point_add_point a b = (false, a)) ∧
    (∀ A B, decodePoint a = some A → decodePoint b = some B → pAdd A B = Pt.inf →
      point_add_point a b = (false, [])) ∧
    (∀ A B x y, decodePoint a = some A → decodePoint b = some B →
      pAdd A B = Pt.aff x y →
      point_add_point a b = (true, (if y % 2 = 0 then 2 else 3) :: beBytes 32 x) ∧
      (point_add_point a b).2.length = 33) := by
  refine ⟨?_, ?_, ?_, ?_⟩
  · intro ha
    rw [point_add_point, point_add_pointT, ha]
  · intro A ha hb
    rw [point_add_point, point_add_pointT, ha, hb]
  · intro A B ha hb hinf
    rw [point_add_point, point_add_pointT, ha, hb]
    dsimp only
    rw [hinf]
    rfl
  · intro A B x y ha hb haff
    have heq : point_add_point a b = (true, (if y % 2 = 0 then 2 else 3) :: beBytes 32 x) := by
      rw [point_add_point, point_add_pointT, ha, hb]
      dsimp only
      rw [haff]
      by_cases hp : y % 2 = 0
      · rw [encodePoint, if_pos rfl, if_pos hp]
      · rw [encodePoint, if_pos rfl, if_neg hp]
    refine ⟨heq, ?_⟩
    rw [heq]
    by_cases hp : y % 2 = 0
    · rw [if_pos hp]
      simp [beBytes_length]
    · rw [if_neg hp]
      simp [beBytes_length]

/-- C5 witness: adding the base point to itself succeeds and yields a
33-byte compressed point. -/
theorem C5_witness :
    decodePoint (secret_to_public_key (beBytes 32 1) true) = some (Pt.aff Gx Gy) ∧
    (point_add_point (secret_to_public_key (beBytes 32 1) true)
      (secret_to_public_key (beBytes 32 1) true)).2.length = 33 := by
  have hd : decodePoint (secret_to_public_key (beBytes 32 1) true) = some (Pt.aff Gx Gy) := by
    decide
  have haff : pAdd (Pt.aff Gx Gy) (Pt.aff Gx Gy) =
      Pt.aff 89565891926547004231252920425935692360644145829622209833684329913297188986597
        12158399299693830322967808612713398636155367887041628176798871954788371653930 := by
    decide
  exact ⟨hd, ((C5_point_add_point_contract _ _).2.2.2 _ _ _ _ hd hd haff).2⟩

/-- C9 (amended): every public operation except point+point addition invokes
the initialization `init.init()` before any curve-arithmetic call;
point+point addition uses a separate general-purpose engine and performs its
curve calls without touching the initialization (see the counterexample). -/
theorem C9_init_before_curve (secret pk sk s h n a b : List Nat) (c : Bool) :
    initBeforeCurve (secret_to_public_keyT secret c).1 = true ∧
    initBeforeCurve (verify_public_keyT pk).1 = true ∧
    initBeforeCurve (verify_private_keyT sk).1 = true ∧
    initBeforeCurve (signT s h n).1 = true ∧
    initBeforeCurve (verify_signatureT pk h s).1 = true ∧
    initBeforeCurve (point_add_secretT a b).1 = true ∧
    initBeforeCurve (point_mul_secretT a b).1 = true ∧
    initBeforeCurve (secret_add_secretT a b).1 = true ∧
    initBeforeCurve (secret_mul_secretT a b).1 = true := by
  refine ⟨rfl, rfl, rfl, ?_, rfl, rfl, rfl, rfl, rfl⟩
  rw [signT]
  by_cases hv : (verify_private_keyT n).2 = false
  · rw [if_pos hv]
    rfl
  · rw [if_neg hv]
    rfl

/-- C8: point+point addition is commutative — for valid distinct operand
encodings the operator yields the same flag and the same resulting bytes in
either order. -/
theorem C8_point_add_commutes (a b : List Nat) (A B : Pt)
    (ha : decodePoint a = some A) (hb : decodePoint b = some B) (hne : a ≠ b) :
    point_add_point a b = point_add_point b a := by
  obtain ⟨Q, hQ⟩ := decodePoint_rel ha
  obtain ⟨R, hR⟩ := decodePoint_rel hb
  have hcomm := pAdd_comm_of_rel hQ hR
  rw [point_add_point, point_add_pointT, ha, hb]
  dsimp only
  rw [hcomm, point_add_point, point_add_pointT, hb, ha]

/-- C1 (amended): whenever `sign` returns a nonempty signature, verifying it
against the public key derived from the same secret and the same hash
succeeds, under either compression flag.  The unrestricted claim fails: for
a valid secret, hash and nonce the signing equation can yield `s = 0`, in
which case `sign` returns the empty signature and verification of it returns
false (see the counterexample). -/
theorem C1_roundtrip_of_signed (secret hash nonce : List Nat) (c : Bool)
    (hne : sign secret hash nonce ≠ []) :
    verify_signature (secret_to_public_key secret c) hash
      (sign secret hash nonce) = true :=
  sign_verify_roundtrip c hne

/-- C1 witness: secret, hash and nonce all encoding 1 give a nonempty
signature that verifies. -/
theorem C1_witness :
    sign (beBytes 32 1) (beBytes 32 1) (beBytes 32 1) ≠ [] ∧
    verify_signature (secret_to_public_key (beBytes 32 1) true) (beBytes 32 1)
      (sign (beBytes 32 1) (beBytes 32 1) (beBytes 32 1)) = true :=
  ⟨by decide, C1_roundtrip_of_signed _ _ _ true (by decide)⟩

/-- C1 counterexample: secret 1, nonce 1 and the 32-byte hash encoding
`n - Gx` are all valid inputs (the nonce is nonzero and below the group
order), yet the signing equation gives `s = 0`, `sign` returns the empty
signature and the round-trip verification returns false. -/
theorem C1_counterexample :
    0 < bytesToNat (beBytes 32 1) ∧ bytesToNat (beBytes 32 1) < N0 ∧
    (beBytes 32 (N0 - Gx)).length = 32 ∧
    sign (beBytes 32 1) (beBytes 32 (N0 - Gx)) (beBytes 32 1) = [] ∧
    verify_signature (secret_to_public_key (beBytes 32 1) true)
      (beBytes 32 (N0 - Gx))
      (sign (beBytes 32 1) (beBytes 32 (N0 - Gx)) (beBytes 32 1)) = false :=
  ⟨by decide, by decide, by decide, by decide, by decide⟩

/-- C2: for every secret accepted by the scalar check, derivation yields
exactly 33 bytes compressed and 65 bytes uncompressed and
`verify_public_key` accepts each result; when the underlying derivation
rejects the secret the result is the empty point. -/
theorem C2_public_key_sizes (secret : List Nat) :
    (seckeyVerify (bytesToNat secret) = true →
      (secret_to_public_key secret true).length = 33 ∧
      (secret_to_public_key secret false).length = 65 ∧
      verify_public_key (secret_to_public_key secret true) = true ∧
      verify_public_key (secret_to_public_key secret false) = true) ∧
    (seckeyVerify (bytesToNat secret) = false →
      secret_to_public_key secret true = [] ∧
      secret_to_public_key secret false = []) := by
  constructor
  · intro hv
    rw [seckeyVerify, Bool.and_eq_true, decide_eq_true_eq, decide_eq_true_eq] at hv
    obtain ⟨hd0, hdN⟩ := hv
    obtain ⟨x1, y1, bs1, hG1, hrel1, hP1, hdec1, hlen1⟩ := pubkeyCreate_decode hd0 hdN true
    obtain ⟨x2, y2, bs2, hG2, hrel2, hP2, hdec2, hlen2⟩ := pubkeyCreate_decode hd0 hdN false
    have hpk1 : secret_to_public_key secret true = bs1 := by
      rw [secret_to_public_key, secret_to_public_keyT]
      dsimp only
      rw [hP1]
    have hpk2 : secret_to_public_key secret false = bs2 := by
      rw [secret_to_public_key, secret_to_public_keyT]
      dsimp only
      rw [hP2]
    refine ⟨by rw [hpk1]; exact hlen1, by rw [hpk2]; exact hlen2, ?_, ?_⟩
    · rw [verify_public_key, verify_public_keyT]
      dsimp only
      rw [pubkeyVerify, hpk1, hdec1]
      rfl
    · rw [verify_public_key, verify_public_keyT]
      dsimp only
      rw [pubkeyVerify, hpk2, hdec2]
      rfl
  · intro hv
    have hcond : ¬(0 < bytesToNat secret ∧ bytesToNat secret < N0) := by
      intro hc
      rw [seckeyVerify] at hv
      simp [hc.1, hc.2] at hv
    constructor
    · rw [secret_to_public_key, secret_to_public_keyT]
      dsimp only
      rw [pubkeyCreate, if_neg hcond]
    · rw [secret_to_public_key, secret_to_public_keyT]
      dsimp only
      rw [pubkeyCreate, if_neg hcond]

/-- C2 witness: the secret encoding 1 passes the scalar check and derives
points of the two documented sizes. -/
theorem C2_witness :
    seckeyVerify (bytesToNat (beBytes 32 1)) = true ∧
    (secret_to_public_key (beBytes 32 1) true).length = 33 ∧
    (secret_to_public_key (beBytes 32 1) false).length = 65 :=
  ⟨by decide, ((C2_public_key_sizes (beBytes 32 1)).1 (by decide)).1,
    ((C2_public_key_sizes (beBytes 32 1)).1 (by decide)).2.1⟩

/-- C6 (amended): for valid secrets `a`, `b` the tweak-mul law holds
unconditionally — the point of `a` scaled by `b` is the point of
`a·b mod n` — and the tweak-add law holds whenever `a + b` is nonzero
modulo the group order.  The unrestricted tweak-add law of the claim fails
when `(a + b) mod n = 0`: the sum is the point at infinity, the tweak fails
and leaves the point unchanged while derivation from the summed scalar
yields the empty point (see the counterexample). -/
theorem C6_tweak_laws (a b : Nat) (ha0 : 0 < a) (haN : a < N0)
    (hb0 : 0 < b) (hbN : b < N0) :
    ((a + b) % N0 ≠ 0 →
      point_add_secret (secret_to_public_key (beBytes 32 a) true) (beBytes 32 b) =
        (true, secret_to_public_key (beBytes 32 ((a + b) % N0)) true)) ∧
    point_mul_secret (secret_to_public_key (beBytes 32 a) true) (beBytes 32 b) =
      (true, secret_to_public_key (beBytes 32 (a * b % N0)) true) := by
  have haby : bytesToNat (beBytes 32 a) = a :=
    bytesToNat_beBytes 32 a (lt_trans haN N0_lt_bytes32)
  have hbby : bytesToNat (beBytes 32 b) = b :=
    bytesToNat_beBytes 32 b (lt_trans hbN N0_lt_bytes32)
  obtain ⟨xa, ya, pa, haG, harel, haP, hadec, halen⟩ := pubkeyCreate_decode ha0 haN true
  have hpa : secret_to_public_key (beBytes 32 a) true = pa := by
    rw [secret_to_public_key, secret_to_public_keyT]
    dsimp only
    rw [haby, haP]
  have hl33 : pa.length = 33 := halen
  have hd33 : decide (pa.length = 33) = true := by
    rw [hl33]
    decide
  constructor
  · intro hab
    have hs0 : 0 < (a + b) % N0 := Nat.pos_of_ne_zero hab
    have hsN : (a + b) % N0 < N0 := Nat.mod_lt _ N0_pos
    obtain ⟨xs, ys, ps, hsG, hsrel, hsP, hsdec, hslen⟩ := pubkeyCreate_decode hs0 hsN true
    have hps : secret_to_public_key (beBytes 32 ((a + b) % N0)) true = ps := by
      rw [secret_to_public_key, secret_to_public_keyT]
      dsimp only
      rw [bytesToNat_beBytes 32 _ (lt_trans hsN N0_lt_bytes32), hsP]
    have hbrel : PtRel (smul b G) (b • GQ) :=
      PtRel_smul b (lt_trans hbN N0_lt_pow) PtRel_G
    have hsum := PtRel_pAdd harel hbrel
    have hz : a • GQ + b • GQ = ((a + b) % N0) • GQ := by
      rw [← add_nsmul]
      exact nsmul_GQ_mod _
    rw [hz] at hsum
    have hpadd : pAdd (Pt.aff xa ya) (smul b G) = Pt.aff xs ys :=
      PtRel_left_unique hsum hsrel
    have henc : encodePoint true (Pt.aff xs ys) = some ps := by
      have h := hsP
      rw [pubkeyCreate, if_pos ⟨hs0, hsN⟩, hsG] at h
      exact h
    rw [point_add_secret, point_add_secretT]
    dsimp only
    rw [hbby, hpa, pubkeyTweakAdd, hadec]
    dsimp only
    rw [if_pos ⟨hb0, hbN⟩, hd33, hpadd, henc, hps]
  · have hm0 : a * b % N0 ≠ 0 := by
      intro hc
      have hz : ((a * b : Nat) : ZMod N0) = 0 := (cast_eq_zero_iff_modN _).mpr hc
      rw [Nat.cast_mul] at hz
      rcases mul_eq_zero.mp hz with h | h
      · rw [cast_eq_zero_iff_modN, Nat.mod_eq_of_lt haN] at h
        omega
      · rw [cast_eq_zero_iff_modN, Nat.mod_eq_of_lt hbN] at h
        omega
    have hs0 : 0 < a * b % N0 := Nat.pos_of_ne_zero hm0
    have hsN : a * b % N0 < N0 := Nat.mod_lt _ N0_pos
    obtain ⟨xs, ys, ps, hsG, hsrel, hsP, hsdec, hslen⟩ := pubkeyCreate_decode hs0 hsN true
    have hps : secret_to_public_key (beBytes 32 (a * b % N0)) true = ps := by
      rw [secret_to_public_key, secret_to_public_keyT]
      dsimp only
      rw [bytesToNat_beBytes 32 _ (lt_trans hsN N0_lt_bytes32), hsP]
    have hsmulrel : PtRel (smul b (Pt.aff xa ya)) (b • (a • GQ)) :=
      PtRel_smul b (lt_trans hbN N0_lt_pow) harel
    have hz2 : b • (a • GQ) = (a * b % N0) • GQ := by
      rw [← mul_nsmul]
      exact nsmul_GQ_mod _
    rw [hz2] at hsmulrel
    have hpmul : smul b (Pt.aff xa ya) = Pt.aff xs ys :=
      PtRel_left_unique hsmulrel hsrel
    have henc : encodePoint true (Pt.aff xs ys) = some ps := by
      have h := hsP
      rw [pubkeyCreate, if_pos ⟨hs0, hsN⟩, hsG] at h
      exact h
    rw [point_mul_secret, point_mul_secretT]
    dsimp only
    rw [hbby, hpa, pubkeyTweakMul, hadec]
    dsimp only
    rw [if_pos ⟨hb0, hbN⟩, hd33, hpmul, henc, hps]

/-- C6 witness: the tweak laws applied at the secrets 2 and 3. -/
theorem C6_witness :
    (2 + 3) % N0 ≠ 0 ∧
    point_add_secret (secret_to_public_key (beBytes 32 2) true) (beBytes 32 3) =
      (true, secret_to_public_key (beBytes 32 ((2 + 3) % N0)) true) ∧
    point_mul_secret (secret_to_public_key (beBytes 32 2) true) (beBytes 32 3) =
      (true, secret_to_public_key (beBytes 32 (2 * 3 % N0)) true) :=
  ⟨by decide,
    (C6_tweak_laws 2 3 (by decide) (by decide) (by decide) (by decide)).1 (by decide),
    (C6_tweak_laws 2 3 (by decide) (by decide) (by decide) (by decide)).2⟩

/-- C6 counterexample: for the valid secrets `a = 1` and `b = n - 1` the
tweak-add fails and leaves the point of `a` unchanged, while derivation
from the summed scalar `(a + b) mod n = 0` yields the empty point — so the
two sides of the claimed law are a nonempty and an empty byte string. -/
theorem C6_counterexample :
    point_add_secret (secret_to_public_key (beBytes 32 1) true)
        (beBytes 32 (N0 - 1)) =
      (false, secret_to_public_key (beBytes 32 1) true) ∧
    secret_to_public_key (beBytes 32 ((1 + (N0 - 1)) % N0)) true = [] ∧
    secret_to_public_key (beBytes 32 1) true ≠ [] := by
  refine ⟨?_, by decide, by decide⟩
  have hdec : decodePoint (secret_to_public_key (beBytes 32 1) true) =
      some (Pt.aff Gx Gy) := by decide
  obtain ⟨ym, hneg, hrelneg⟩ := smul_neg_x (k := 1) (by decide) (by decide)
    (show smul 1 G = Pt.aff Gx Gy from by decide)
  have hrelG : PtRel (Pt.aff Gx Gy) ((1 : Nat) • GQ) := by
    have h := PtRel_smul 1 (by norm_num) PtRel_G
    rwa [show smul 1 G = Pt.aff Gx Gy from by decide] at h
  have hsum := PtRel_pAdd hrelG hrelneg
  have hzero : (1 : Nat) • GQ + (N0 - 1) • GQ = 0 := by
    rw [← add_nsmul, Nat.add_sub_cancel' (by norm_num [N0] : 1 ≤ N0), N0_nsmul_GQ]
  rw [hzero] at hsum
  have hinf : pAdd (Pt.aff Gx Gy) (smul (N0 - 1) G) = Pt.inf := by
    rw [hneg]
    exact PtRel_left_unique hsum PtRel_inf_zero
  rw [point_add_secret, point_add_secretT]
  dsimp only
  rw [show bytesToNat (beBytes 32 (N0 - 1)) = N0 - 1 from by decide]
  rw [pubkeyTweakAdd, hdec]
  dsimp only
  rw [if_pos ⟨by decide, by decide⟩, hinf, encodePoint]

/-- C8 witness: commutativity applied at the distinct valid points of the
secrets 1 and 2. -/
theorem C8_witness :
    point_add_point (secret_to_public_key (beBytes 32 1) true)
        (secret_to_public_key (beBytes 32 2) true) =
      point_add_point (secret_to_public_key (beBytes 32 2) true)
        (secret_to_public_key (beBytes 32 1) true) :=
  C8_point_add_commutes _ _ (Pt.aff Gx Gy)
    (Pt.aff 89565891926547004231252920425935692360644145829622209833684329913297188986597
      12158399299693830322967808612713398636155367887041628176798871954788371653930)
    (by decide) (by decide) (by decide)

/-- C9 counterexample: the point+point operator (ec_keys.cpp:117–145)
performs curve-engine calls with no preceding initialization — its event
trace starts with a curve event and contains no init event. -/
theorem C9_counterexample :
    initBeforeCurve (point_add_pointT [] []).1 = false ∧
    Event.curveEv ∈ (point_add_pointT [] []).1 ∧
    Event.initEv ∉ (point_add_pointT [] []).1 :=
  ⟨by decide, by decide, by decide⟩

/-- C4 counterexample: a valid signature of the hash encoding
`(n-1)/2 + n - Gx mod n` under secret 1 and nonce 1 still verifies after
its final byte is changed (ECDSA malleability: the flipped byte list is the
encoding of `(r, n - s)`), and the unmodified signature also verifies a
second, different hash (the encoding of `-e - 2·r·d mod n`) — refuting the
byte-flip and hash-mismatch clauses of the claim. -/
theorem C4_counterexample :
    sign (beBytes 32 1) (beBytes 32 (((N0 - 1) / 2 + N0 - Gx) % N0))
      (beBytes 32 1) ≠ [] ∧
    verify_signature (secret_to_public_key (beBytes 32 1) true)
      (beBytes 32 (((N0 - 1) / 2 + N0 - Gx) % N0))
      (sign (beBytes 32 1) (beBytes 32 (((N0 - 1) / 2 + N0 - Gx) % N0))
        (beBytes 32 1)) = true ∧
    ((sign (beBytes 32 1) (beBytes 32 (((N0 - 1) / 2 + N0 - Gx) % N0))
        (beBytes 32 1)).set 69 161 ≠
      sign (beBytes 32 1) (beBytes 32 (((N0 - 1) / 2 + N0 - Gx) % N0))
        (beBytes 32 1) ∧
      verify_signature (secret_to_public_key (beBytes 32 1) true)
        (beBytes 32 (((N0 - 1) / 2 + N0 - Gx) % N0))
        ((sign (beBytes 32 1) (beBytes 32 (((N0 - 1) / 2 + N0 - Gx) % N0))
          (beBytes 32 1)).set 69 161) = true) ∧
    (beBytes 32 ((2 * N0 - (((N0 - 1) / 2 + N0 - Gx) % N0 + 2 * Gx) % N0) % N0) ≠
        beBytes 32 (((N0 - 1) / 2 + N0 - Gx) % N0) ∧
      verify_signature (secret_to_public_key (beBytes 32 1) true)
        (beBytes 32 ((2 * N0 - (((N0 - 1) / 2 + N0 - Gx) % N0 + 2 * Gx) % N0) % N0))
        (sign (beBytes 32 1) (beBytes 32 (((N0 - 1) / 2 + N0 - Gx) % N0))
          (beBytes 32 1)) = true) := by
  have hsig : sign (beBytes 32 1) (beBytes 32 (((N0 - 1) / 2 + N0 - Gx) % N0))
      (beBytes 32 1) = encodeDER Gx ((N0 - 1) / 2) := by decide
  have hflip : (sign (beBytes 32 1) (beBytes 32 (((N0 - 1) / 2 + N0 - Gx) % N0))
      (beBytes 32 1)).set 69 161 = encodeDER Gx ((N0 - 1) / 2 + 1) := by decide
  have hdec : decodePoint (secret_to_public_key (beBytes 32 1) true) =
      some (Pt.aff Gx Gy) := by decide
  have hG1 : smul (1 % N0) G = Pt.aff Gx Gy := by decide
  obtain ⟨ym, hneg, hrelneg⟩ := smul_neg_x (k := 1) (by decide) (by decide)
    (show smul 1 G = Pt.aff Gx Gy from by decide)
  rw [show (N0 - 1 : Nat) = (N0 - 1) % N0 from (Nat.mod_eq_of_lt (by decide)).symm] at hneg
  refine ⟨by decide, ?_, ⟨by decide, ?_⟩, ⟨by decide, ?_⟩⟩
  · rw [verify_signature, verify_signatureT]
    dsimp only
    rw [hsig, show bytesToNat (beBytes 32 (((N0 - 1) / 2 + N0 - Gx) % N0)) =
        ((N0 - 1) / 2 + N0 - Gx) % N0 from by decide,
      ecdsaVerify_eq_RS hdec (parse_encodeDER Gx ((N0 - 1) / 2) (by decide) (by decide))]
    exact ecdsaVerifyRS_eq_x (d := 1) (m := 1) (by decide) (by decide) (by decide)
      (by decide) (by decide) (by decide) (by decide) hG1 (by decide)
  · rw [verify_signature, verify_signatureT]
    dsimp only
    rw [hflip, show bytesToNat (beBytes 32 (((N0 - 1) / 2 + N0 - Gx) % N0)) =
        ((N0 - 1) / 2 + N0 - Gx) % N0 from by decide,
      ecdsaVerify_eq_RS hdec
        (parse_encodeDER Gx ((N0 - 1) / 2 + 1) (by decide) (by decide))]
    exact ecdsaVerifyRS_eq_x (d := 1) (m := N0 - 1) (by decide) (by decide) (by decide)
      (by decide) (by decide) (by decide) (by decide) hneg (by decide)
  · rw [verify_signature, verify_signatureT]
    dsimp only
    rw [hsig, show bytesToNat (beBytes 32
          ((2 * N0 - (((N0 - 1) / 2 + N0 - Gx) % N0 + 2 * Gx) % N0) % N0)) =
        (2 * N0 - (((N0 - 1) / 2 + N0 - Gx) % N0 + 2 * Gx) % N0) % N0 from by decide,
      ecdsaVerify_eq_RS hdec (parse_encodeDER Gx ((N0 - 1) / 2) (by decide) (by decide))]
    exact ecdsaVerifyRS_eq_x (d := 1) (m := N0 - 1) (by decide) (by decide) (by decide)
      (by decide) (by decide) (by decide) (by decide) hneg (by decide)

end ECKeys
